import Mathlib

/-! gotop: configuration store, start-up arguments and the set-up screen

A shallow embedding of `io/files.go`, `io/args.go` and of the keyboard
subscriber of `ui/configs.go`.

Modelling conventions.

* A Go `string` / `[]byte` is a list of characters (`Str`); the config file
  is UTF-8 text and offsets count characters.
* The file `gotop.conf` is a value of type `File`: `none` when the file does
  not exist, `some content` otherwise.
* A Go run-time panic (slice bounds out of range, `panic(err)`) is the
  result `none` of an `Option`-valued function.
* `utility.Dbmsstr`, `utility.Strdbms`, `queries.Ping`, `queries.Connect`, the
  settings lookup and the `io.SyncConfig` that `ui/configs.go` calls with the
  `Instances` map (`io/files.go` has the one that takes a slice) are not part
  of the sources at hand; the functions that call them take them as
  parameters.
* A `time.Duration` is a signed 64-bit number of nanoseconds: products wrap
  around and `time.Since` saturates.
-/

namespace Gotop

/-- A Go string or byte slice. -/
abbrev Str := List Char

/-- The file `gotop.conf`: `none` when it does not exist. -/
abbrev File := Option Str

/-- The record `types.Instance`, with the fields the sources use.  A nil
`Driver` is `none`. -/
structure Instance where
  DBMS : Int
  DSN : Str
  ConnName : Str
  Group : Str
  Driver : Option Nat
deriving DecidableEq, Repr

/-- The zero value of `types.Instance` (`var inst types.Instance`). -/
def Instance.zero : Instance :=
  { DBMS := 0, DSN := [], ConnName := [], Group := [], Driver := none }

/-! ## The Go string library -/

/-- Whether `sub` occurs in `s` at offset 0 (`strings.HasPrefix`). -/
def startsWith : Str → Str → Bool
  | _, [] => true
  | [], _ :: _ => false
  | c :: cs, d :: ds => c == d && startsWith cs ds

/-- First offset of `sub` in `s` as a natural number, if any. -/
def indexNat (sub : Str) : Str → Option Nat
  | [] => if startsWith [] sub then some 0 else none
  | c :: cs =>
    if startsWith (c :: cs) sub then some 0
    else (indexNat sub cs).map (· + 1)

/-- Go `strings.Index(s, sub)`: the first offset of `sub` in `s`, or -1.  The
offset counts characters; on ASCII text it is the byte offset Go returns. -/
def Index (s sub : Str) : Int :=
  match indexNat sub s with
  | some i => (i : Int)
  | none => -1

/-- The Go slice expression `s[lo:hi]`; `none` is the bounds panic. -/
def slice (s : Str) (lo hi : Int) : Option Str :=
  if 0 ≤ lo ∧ lo ≤ hi ∧ hi ≤ (s.length : Int) then
    some ((s.take hi.toNat).drop lo.toNat)
  else none

/-- Go `strings.Split(s, sep)` for a one-character separator. -/
def Split (sep : Char) : Str → List Str
  | [] => [[]]
  | c :: cs =>
    if c = sep then [] :: Split sep cs
    else
      match Split sep cs with
      | [] => [[c]]
      | l :: ls => (c :: l) :: ls

/-- Go `strings.Join(elems, sep)` for a one-character separator. -/
def Join (sep : Char) : List Str → Str
  | [] => []
  | [l] => l
  | l :: m :: ls => l ++ sep :: Join sep (m :: ls)

/-- Go `unicode.IsSpace`. -/
def isSpace (c : Char) : Bool :=
  let n := c.toNat
  (9 ≤ n && n ≤ 13) || n == 32 || n == 0x85 || n == 0xA0 || n == 0x1680 ||
  (0x2000 ≤ n && n ≤ 0x200A) || n == 0x2028 || n == 0x2029 || n == 0x202F ||
  n == 0x205F || n == 0x3000

/-- Go `strings.TrimSpace`. -/
def TrimSpace (s : Str) : Str :=
  ((s.dropWhile isSpace).reverse.dropWhile isSpace).reverse

/-! ## io/files.go -/

/-- The closing marker of the connections section. -/
def connClose : Str := "[/connections]".toList

/-- The opening marker of the connections section. -/
def connOpen : Str := "[connections]".toList

/-- The text `WriteConfig` inserts for an instance, without the final
newline: `fdbms + fdsn + fdbname`. -/
def configLine (Strdbms : Int → Str) (inst : Instance) : Str :=
  ("dbms=".toList ++ Strdbms inst.DBMS ++ " ".toList) ++
  ("dsn=".toList ++ inst.DSN ++ " ".toList) ++
  ("conn-name=".toList ++ inst.ConnName)

/-- The function `WriteConfig`.  The outer `Option` is the panic of the slice
expressions `content[:connStart]`, `content[connEnd:]`; the `Bool` is
`err != nil` (the file could not be read). -/
def WriteConfig (Strdbms : Int → Str) (inst : Instance) (file : File) :
    Option (File × Bool) :=
  match file with
  | none => some (none, true)
  | some content =>
    let connStart := Index content connClose
    let connEnd := Index content connClose
    match slice content 0 connStart, slice content connEnd content.length with
    | some beforeSection, some afterSection =>
      some (some (beforeSection ++ configLine Strdbms inst ++ "\n".toList ++ afterSection),
            false)
    | _, _ => none

/-- The function `ResetConfig`: remove, create, then one `WriteFile` per
header; `WriteFile` replaces the whole content. -/
def ResetConfig (_file : File) : File :=
  let created : File := some []
  ["plugins".toList, "connections".toList].foldl
    (fun _ elem => some ("[".toList ++ elem ++ "]\n\n[/".toList ++ elem ++ "]\n".toList))
    created

/-- The body of the inner loop of `ReadConfig`: one `key=value` pair. -/
def readPair (Dbmsstr : Str → Int) (inst : Instance) (pair : Str) : Instance :=
  let pair := TrimSpace pair
  if pair = [] then inst
  else
    let parts := Split '=' pair
    match parts with
    | [p0, p1] =>
      let key := TrimSpace p0
      let value := TrimSpace p1
      if key = "dbms".toList then { inst with DBMS := Dbmsstr value }
      else if key = "dsn".toList then { inst with DSN := value }
      else if key = "conn-name".toList then { inst with ConnName := value }
      else inst
    | _ => inst

/-- The body of the outer loop of `ReadConfig`: one line of the section;
`utility.PushInstance` appends. -/
def readLine (Dbmsstr : Str → Int) (instances : List Instance) (line : Str) :
    List Instance :=
  let line := TrimSpace line
  if line = [] ∨ line = "\n".toList then instances
  else
    let pairs := Split ' ' line
    let inst := pairs.foldl (readPair Dbmsstr) Instance.zero
    instances ++ [inst]

/-- The function `ReadConfig`.  The outer `Option` is the panic of
`contents[connStart+13 : connEnd-1]`; the `Bool` is `err != nil`. -/
def ReadConfig (Dbmsstr : Str → Int) (file : File) (instances : List Instance) :
    Option (List Instance × Bool) :=
  match file with
  | none => some (instances, true)
  | some contents =>
    let connStart := Index contents connOpen
    let connEnd := Index contents connClose
    match slice contents (connStart + 13) (connEnd - 1) with
    | none => none
    | some config =>
      let lines := Split '\n' config
      some (lines.foldl (readLine Dbmsstr) instances, false)

/-- The loop of `CleanConfig` over the lines: `uniquelines` is the set of
lines seen, `ordered` the lines kept. -/
def cleanStep (acc : List Str × List Str) (line : Str) : List Str × List Str :=
  let (uniquelines, ordered) := acc
  if line = [] ∨ line = "\n".toList then (line :: uniquelines, ordered ++ [line])
  else if line ∈ uniquelines then (uniquelines, ordered)
  else (line :: uniquelines, ordered ++ [line])

/-- The content `CleanConfig` writes back for the content it read. -/
def cleanContent (config : Str) : Str :=
  let lines := Split '\n' config
  let ordered := (lines.foldl cleanStep ([], [])).2
  Join '\n' ordered

/-- The function `CleanConfig`; `none` is `panic(err)` on an unreadable
file. -/
def CleanConfig (file : File) : Option File :=
  match file with
  | none => none
  | some content => some (some (cleanContent content))

/-- The write loop of `SyncConfig`: `WriteConfig` for each instance, with
`panic(err)` on an error. -/
def writeAll (Strdbms : Int → Str) : List Instance → File → Option File
  | [], file => some file
  | inst :: rest, file =>
    match WriteConfig Strdbms inst file with
    | some (file1, false) => writeAll Strdbms rest file1
    | _ => none

/-- The function `SyncConfig`: the file it leaves and the list it returns;
`none` is a panic. -/
def SyncConfig (Strdbms : Int → Str) (Dbmsstr : Str → Int)
    (instances : List Instance) (file : File) : Option (File × List Instance) :=
  match writeAll Strdbms instances file with
  | none => none
  | some file1 =>
    match CleanConfig file1 with
    | none => none
    | some file2 =>
      match ReadConfig Dbmsstr file2 [] with
      | none => none
      | some (insts, _) => some (file2, insts)

/-- Modelled from the spec: `utility.Dbmsstr` is not among the sources; this
stand-in recognises the kind `mysql` (tag 0) and answers -1 otherwise. -/
def sampleDbmsstr (s : Str) : Int :=
  if s = "mysql".toList then 0 else -1

/-- Modelled from the spec: `utility.Strdbms` is not among the sources; this
stand-in names the tag 0 `mysql`. -/
def sampleStrdbms (d : Int) : Str :=
  if d = 0 then "mysql".toList else "n/a".toList

/-! ## io/args.go -/

/-- What `ReadArgs` does: it returns the instances, or it calls
`errors.ThrowArgError`. -/
inductive ArgsResult where
  | argError : ArgsResult
  | ok : List Instance → ArgsResult
deriving DecidableEq, Repr

/-- Modelled from the spec: `errors.ThrowArgError` is not among the sources;
the spec makes a malformed arity or an unrecognised kind a fatal start-up
error with a non-zero exit code, so the call ends the process and nothing
after it runs. -/
def ThrowArgError (_args : List Str) : ArgsResult := ArgsResult.argError

/-- The function `ReadArgs`; `args` is `os.Args`, program name included. -/
def ReadArgs (Dbmsstr : Str → Int) (args : List Str) (instances : List Instance) :
    ArgsResult :=
  if 2 < args.length ∧ args.length < 6 then
    let inst : Instance := { Instance.zero with DBMS := Dbmsstr (args.getD 1 []) }
    if inst.DBMS = -1 then ThrowArgError args
    else
      let inst : Instance := { inst with DSN := args.getD 2 [] }
      let inst : Instance :=
        if 3 < args.length then
          let inst : Instance := { inst with ConnName := args.getD 3 [] }
          if 4 < args.length then { inst with Group := args.getD 4 [] }
          else { inst with Group := [] }
        else if args.length < 4 then { inst with ConnName := "unnamed".toList }
        else inst
      let inst : Instance :=
        if args.length = 5 then { inst with Group := args.getD 4 [] } else inst
      ArgsResult.ok (instances ++ [inst])
  else ThrowArgError args

/-! ## ui/configs.go: the keyboard subscriber of `DisplayConfigs` -/

/-- What the subscriber takes from outside the sources at hand. -/
structure Env where
  /-- The function `utility.Strdbms`. -/
  Strdbms : Int → Str
  /-- The function `utility.Dbmsstr`. -/
  Dbmsstr : Str → Int
  /-- The function `queries.Ping`. -/
  Ping : Instance → Bool
  /-- The function `queries.Connect`: the handle and whether `err == nil`. -/
  Connect : Instance → Option Nat × Bool
  /-- The function `io.SyncConfig` that `ui/configs.go` calls with the
  `Instances` map; it is not among the sources.  From the map and the file it
  gives the file and the map as the call leaves them (a Go map is passed by
  reference); `none` is a panic. -/
  SyncConfig : List (Str × Instance) → File → Option (File × List (Str × Instance))
  /-- The value of `strconv.Atoi(io.FetchSetting("rate-limiter"))`. -/
  ratelim : Int
  /-- The constant `types.MENU`. -/
  MENU : Int

/-- The package variables and widgets the subscriber reads and writes, and
the config file.  `Instances` is the Go map as an association list with
distinct keys; `errlog` and `instlog` hold what was written to the text
widget since its last `Reset`. -/
structure UI where
  Instances : List (Str × Instance)
  ActiveConns : List Str
  CurrConn : Str
  State : Int
  Laststate : Int
  LastInputTime : Int
  errlog : List Str
  instlog : List Str
  dbmsin : Str
  dsnin : Str
  namein : Str
  file : File
  cancelled : Bool
deriving DecidableEq, Repr

/-- The keys the subscriber tells apart. -/
inductive Key where
  | Enter : Key
  | CtrlD : Key
  | Esc : Key
  | Rune : Char → Key
  | Other : Nat → Key
deriving DecidableEq, Repr

/-- The map assignment `m[k] = v`. -/
def mapSet (m : List (Str × Instance)) (k : Str) (v : Instance) :
    List (Str × Instance) :=
  match m with
  | [] => [(k, v)]
  | (k1, v1) :: rest => if k1 = k then (k, v) :: rest else (k1, v1) :: mapSet rest k v

/-- The function `instanceDisplay`: the content of `instlog` after it. -/
def instanceDisplay (env : Env) (insts : List (Str × Instance)) : List Str :=
  insts.foldl (fun log kv =>
    log ++ ["\n   dbms".toList, ": ".toList ++ env.Strdbms kv.2.DBMS,
            "   dsn".toList, ": ".toList ++ kv.2.DSN,
            "   conn-name".toList, ": ".toList ++ kv.2.ConnName,
            if kv.2.Driver ≠ none then " ONLINE".toList else " OFFLINE".toList]) []

/-- The warning of the two guarded keys. -/
def guardWarning : Str :=
  "\n   Please make sure to have a minimum of one connection online\n   before changing views.".toList

/-- The branch `case keyboard.KeyEnter`. -/
def onEnter (env : Env) (s : UI) : Option UI :=
  let s := { s with errlog := [] }
  let dbms := s.dbmsin
  let s := { s with dbmsin := [] }
  if env.Dbmsstr dbms = -1 then
    some { s with errlog := ["\n   Error: Unknown DBMS: ".toList ++ dbms ++ "\n".toList],
                  dsnin := [], namein := [] }
  else
    let dsn := s.dsnin
    let s := { s with dsnin := [] }
    if dsn = [] then
      some { s with errlog := ["\n   Error: Blank DSN is invalid.".toList], namein := [] }
    else
      let name := s.namein
      let s := { s with namein := [] }
      let s := if name = [] then
          { s with errlog := s.errlog ++ ["\n   Warning: Blank connection name!".toList] }
        else s
      let name := if name = [] then "<unnamed>".toList else name
      let inst : Instance :=
        { Instance.zero with DBMS := env.Dbmsstr dbms, DSN := dsn, ConnName := name }
      if ¬ env.Ping inst then
        some { s with errlog := ["\n   Error: Invalid DSN. Connection closed.".toList] }
      else
        let s := { s with errlog := ["\n   Success! Connection established.".toList] }
        let conn := env.Connect inst
        let inst : Instance := { inst with Driver := conn.1 }
        let s := if conn.2 then
            let active := s.ActiveConns ++ [inst.ConnName]
            { s with ActiveConns := active,
                     CurrConn := if active.length = 1 then active.headD [] else s.CurrConn }
          else s
        let s := { s with Instances := mapSet s.Instances inst.ConnName inst }
        match env.SyncConfig s.Instances s.file with
        | none => none
        | some (file1, insts1) =>
          some { s with file := file1, Instances := insts1,
                        instlog := instanceDisplay env insts1 }

/-- The loop of the branch `case keyboard.KeyCtrlD`; the loop variable is a
copy, the map is not written. -/
def reconnectAll (env : Env) (insts : List (Str × Instance)) (active : List Str) :
    List Str :=
  insts.foldl (fun act kv =>
    if kv.2.Driver = none then
      if (env.Connect kv.2).2 then act ++ [kv.2.ConnName] else act
    else act) active

/-- The branch `case keyboard.KeyCtrlD`. -/
def onCtrlD (env : Env) (s : UI) : Option UI :=
  match env.SyncConfig s.Instances s.file with
  | none => none
  | some (file1, insts1) =>
    some { s with file := file1, Instances := insts1,
                  ActiveConns := reconnectAll env insts1 s.ActiveConns,
                  cancelled := true }

/-- The value a signed 64-bit integer takes for the exact result `x` of an
addition or a multiplication (two's complement wrap-around). -/
def wrapInt64 (x : Int) : Int :=
  (x + 9223372036854775808) % 18446744073709551616 - 9223372036854775808

/-- Go `time.Since(t)` at time `now`, times in nanoseconds: the difference,
or the largest or smallest `time.Duration` when it does not fit. -/
def timeSince (now t : Int) : Int :=
  if now - t > 9223372036854775807 then 9223372036854775807
  else if now - t < -9223372036854775808 then -9223372036854775808
  else now - t

/-- Whether the rate limiter drops a key that arrives at time `now`
(nanoseconds): `elapsed < time.Duration(ratelim)*time.Millisecond`, the
product taken in `int64`. -/
def dropped (env : Env) (now : Int) (s : UI) : Bool :=
  decide (timeSince now s.LastInputTime < wrapInt64 (env.ratelim * 1000000))

/-- The closure `keyninreader`, for a key that arrives at time `now`;
`none` is a panic. -/
def keyninreader (env : Env) (k : Key) (now : Int) (s : UI) : Option UI :=
  if dropped env now s then some s
  else
    let s := { s with LastInputTime := now }
    if k = Key.Enter then onEnter env s
    else if k = Key.CtrlD then onCtrlD env s
    else if k = Key.Rune '?' then
      if 0 < s.ActiveConns.length then some { s with State := env.MENU, cancelled := true }
      else some { s with errlog := [guardWarning] }
    else if k = Key.Esc then
      if 0 < s.ActiveConns.length then some { s with State := s.Laststate, cancelled := true }
      else some { s with errlog := [guardWarning] }
    else some s

/-! ## Stand-ins for concrete runs -/

/-- Modelled from the spec: the `io.SyncConfig` that takes the `Instances`
map is not among the sources; by the spec the configuration store persists
the instance records and has no side effect on the registry, so this stand-in
hands the records of the map to the `SyncConfig` of `io/files.go` and leaves
the map as it is. -/
def sampleSyncConfig (m : List (Str × Instance)) (file : File) :
    Option (File × List (Str × Instance)) :=
  match SyncConfig sampleStrdbms sampleDbmsstr (m.map Prod.snd) file with
  | none => none
  | some (file1, _) => some (file1, m)

/-- Modelled from the spec: an environment for concrete runs, with the
stand-ins for `utility.Strdbms`, `utility.Dbmsstr` and `io.SyncConfig`, a
server that answers every ping and connection attempt, a rate limit of
100 ms and `MENU` as state 1. -/
def sampleEnv : Env :=
  { Strdbms := sampleStrdbms, Dbmsstr := sampleDbmsstr, Ping := fun _ => true,
    Connect := fun _ => (some 1, true), SyncConfig := sampleSyncConfig,
    ratelim := 100, MENU := 1 }

/-- The set-up screen right after a key was handled at time 0, with no
instance and the freshly reset config file. -/
def sampleUI : UI :=
  { Instances := [], ActiveConns := [], CurrConn := [], State := 0, Laststate := 2,
    LastInputTime := 0, errlog := [], instlog := [], dbmsin := [], dsnin := [],
    namein := [], file := ResetConfig none, cancelled := false }

/-- An instance with the given kind, DSN and connection name. -/
def mkInstance (dbms : Int) (dsn name : Str) : Instance :=
  { DBMS := dbms, DSN := dsn, ConnName := name, Group := [], Driver := none }

/-! ## Definitions that follow the wording of the claims -/

/-- The lines the claim describes: a line is kept when it is empty or does
not occur among the lines `before` it. -/
def keptLines : List Str → List Str → List Str
  | _, [] => []
  | before, l :: rest =>
    if l = [] ∨ l ∉ before then l :: keptLines (before ++ [l]) rest
    else keptLines (before ++ [l]) rest

/-- The lines `ls`, each followed by a newline. -/
def unlines : List Str → Str
  | [] => []
  | l :: ls => l ++ '\n' :: unlines ls

/-- A value the `key=value` format of the connections section can carry: no
character that `unicode.IsSpace` accepts and no `=`. -/
def cleanValue (v : Str) : Bool :=
  v.all (fun c => !isSpace c && c != '=')

/-- The first closing marker of the content starts a line. -/
def markerStartsLine (content : Str) : Prop :=
  ∃ before after : Str, content = before ++ connClose ++ after ∧
    Index content connClose = before.length ∧
    (before = [] ∨ before.getLast? = some '\n')

/-- The file `SyncConfig` leaves when its write loop and `CleanConfig` are
done, before it reads the file back. -/
def syncFile (Strdbms : Int → Str) (instances : List Instance) (file : File) :
    Option File :=
  match writeAll Strdbms instances file with
  | none => none
  | some file1 => CleanConfig file1

/-! ## Runs of the keyboard subscriber -/

/-- The map read `m[k]`, with whether the key is present. -/
def mapGet (m : List (Str × Instance)) (k : Str) : Option Instance :=
  match m with
  | [] => none
  | (k1, v1) :: rest => if k1 = k then some v1 else mapGet rest k

/-- A key as it reaches the subscriber: the key, its arrival time, what the
three text fields hold at that moment, and what `queries.Ping` and
`queries.Connect` answer while it is handled. -/
structure KeyEvent where
  key : Key
  now : Int
  dbms : Str
  dsn : Str
  name : Str
  Ping : Instance → Bool
  Connect : Instance → Option Nat × Bool

/-- The connection name an Enter submission stores: the content of the name
field, or `<unnamed>` when the field is blank. -/
def submittedName (e : KeyEvent) : Str :=
  if e.name = [] then "<unnamed>".toList else e.name

/-- The subscriber on one key event. -/
def handleEvent (env : Env) (e : KeyEvent) (s : UI) : Option UI :=
  keyninreader { env with Ping := e.Ping, Connect := e.Connect } e.key e.now
    { s with dbmsin := e.dbms, dsnin := e.dsn, namein := e.name }

/-- The subscriber on a sequence of key events; `none` when one of them
panics. -/
def runEvents (env : Env) : List KeyEvent → UI → Option UI
  | [], s => some s
  | e :: es, s =>
    match handleEvent env e s with
    | none => none
    | some s1 => runEvents env es s1

/-- An Enter submission of kind `mysql` with the given DSN and name at the
given time, with the given answers of the server. -/
def submitEvent (now : Int) (dsn name : Str) (ping : Bool) (conn : Option Nat × Bool) :
    KeyEvent :=
  { key := Key.Enter, now := now, dbms := "mysql".toList, dsn := dsn, name := name,
    Ping := fun _ => ping, Connect := fun _ => conn }

/-- The key Ctrl-D at the given time, with the given answer to connection
attempts. -/
def reconnectEvent (now : Int) (conn : Option Nat × Bool) : KeyEvent :=
  { key := Key.CtrlD, now := now, dbms := [], dsn := [], name := [],
    Ping := fun _ => true, Connect := fun _ => conn }

/-- What the claims look at after a run: `ActiveConns`, and for each key of
`Instances` whether the stored `Driver` is non-nil. -/
def onlineView (s : UI) : List Str × List (Str × Bool) :=
  (s.ActiveConns, s.Instances.map (fun kv => (kv.1, kv.2.Driver.isSome)))

/-- The instance an Enter submission hands to `queries.Ping` and
`queries.Connect`. -/
def enterInstance (env : Env) (e : KeyEvent) : Instance :=
  { Instance.zero with
    DBMS := env.Dbmsstr e.dbms, DSN := e.dsn, ConnName := submittedName e }

/-- The key event is an Enter submission that gets to the connection
attempt: the rate limiter lets it through, the kind is recognised, the DSN is
not blank and the ping is answered. -/
def accepted (env : Env) (e : KeyEvent) (s : UI) : Bool :=
  decide (e.key = Key.Enter) && !dropped env e.now s &&
  decide (env.Dbmsstr e.dbms ≠ -1) && decide (e.dsn ≠ []) &&
  e.Ping (enterInstance env e)

/-- The key event submits again a name that is in `ActiveConns`, and the
connection attempt reports no error (the name is appended once more) or
yields no handle (a nil `Driver` is stored under the name). -/
def resubmits (env : Env) (e : KeyEvent) (s : UI) : Bool :=
  accepted env e s && decide (submittedName e ∈ s.ActiveConns) &&
  ((e.Connect (enterInstance env e)).2 ||
    decide ((e.Connect (enterInstance env e)).1 = none))

/-- The key event is a Ctrl-D the rate limiter lets through, and one of the
stored instances has a nil `Driver` and a connection attempt without
error. -/
def reconnects (env : Env) (e : KeyEvent) (s : UI) : Bool :=
  decide (e.key = Key.CtrlD) && !dropped env e.now s &&
  s.Instances.any (fun kv => decide (kv.2.Driver = none) && (e.Connect kv.2).2)

/-- No key event of the run, at the state it arrives in, submits an online
name again or reconnects a stored instance. -/
def orderly (env : Env) : List KeyEvent → UI → Bool
  | [], _ => true
  | e :: es, s =>
    !resubmits env e s && !reconnects env e s &&
    match handleEvent env e s with
    | none => true
    | some s1 => orderly env es s1

/-- The online list of the claim: no name occurs twice in `ActiveConns`, and
every name in it is a key of `Instances` whose stored `Driver` is non-nil. -/
def onlineConsistent (s : UI) : Prop :=
  s.ActiveConns.Nodup ∧
  ∀ n ∈ s.ActiveConns, ∃ v, mapGet s.Instances n = some v ∧ v.Driver ≠ none

/-- The instance the Enter branch builds from the text fields of the state
before the connection attempt. -/
def pendingInstance (env : Env) (s : UI) : Instance :=
  { Instance.zero with
    DBMS := env.Dbmsstr s.dbmsin, DSN := s.dsnin,
    ConnName := if s.namein = [] then "<unnamed>".toList else s.namein }

/-! # Theorems -/

/-! ## Offsets returned by `Index` -/

theorem startsWith_length_le : ∀ (s sub : Str), startsWith s sub = true → sub.length ≤ s.length
  | _, [], _ => by simp
  | [], _ :: _, h => by simp [startsWith] at h
  | c :: cs, d :: ds, h => by
    simp only [startsWith, Bool.and_eq_true] at h
    have := startsWith_length_le cs ds h.2
    simp only [List.length_cons]
    omega

theorem indexNat_add_le (sub : Str) : ∀ (s : Str) (i : Nat),
    indexNat sub s = some i → i + sub.length ≤ s.length
  | [], i, h => by
    simp only [indexNat] at h
    split at h
    · rename_i hs
      have := startsWith_length_le [] sub hs
      simp only [Option.some.injEq] at h
      subst h
      simpa using this
    · simp at h
  | c :: cs, i, h => by
    simp only [indexNat] at h
    split at h
    · rename_i hs
      have := startsWith_length_le (c :: cs) sub hs
      simp only [Option.some.injEq] at h
      subst h
      simpa using this
    · cases hq : indexNat sub cs with
      | none => simp [hq] at h
      | some j =>
        simp only [hq, Option.map_some', Option.some.injEq] at h
        have := indexNat_add_le sub cs j hq
        subst h
        simp only [List.length_cons]
        omega

theorem Index_ge (s sub : Str) : -1 ≤ Index s sub := by
  unfold Index
  split <;> omega

theorem Index_add_le (s sub : Str) (h : 0 ≤ Index s sub) :
    Index s sub + sub.length ≤ s.length := by
  unfold Index at h ⊢
  split at h
  · rename_i i hi
    have := indexNat_add_le sub s i hi
    omega
  · omega

/-! ## ResetConfig -/

/-- C10: after `ResetConfig` the file holds the header pair of the
connections section only, whatever it held before: the second `WriteFile`
replaces the plugins header written by the first, so the content is not the
plugins header followed by the connections header. -/
theorem ResetConfig_keeps_last_header (file : File) :
    ResetConfig file = some "[connections]\n\n[/connections]\n".toList ∧
    ResetConfig file ≠
      some ("[plugins]\n\n[/plugins]\n".toList ++ "[connections]\n\n[/connections]\n".toList) := by
  have h : ResetConfig file = some "[connections]\n\n[/connections]\n".toList := rfl
  rw [h]
  constructor
  · rfl
  · decide

/-! ## ReadConfig on a corrupt file -/

/-- C6: `ReadConfig` panics on the slice expression
`contents[connStart+13 : connEnd-1]` exactly when the closing marker does not
start at least 14 characters after the start of the opening marker (a missing
marker counts as offset -1); the empty file and the file
`[connections][/connections]` are such contents. -/
theorem ReadConfig_panics_iff (Dbmsstr : Str → Int) (contents : Str)
    (instances : List Instance) :
    (ReadConfig Dbmsstr (some contents) instances = none ↔
      Index contents connClose < Index contents connOpen + 14) ∧
    ReadConfig Dbmsstr (some []) instances = none ∧
    ReadConfig Dbmsstr (some "[connections][/connections]".toList) instances = none := by
  refine ⟨?_, ?_, ?_⟩
  · have h1 := Index_ge contents connOpen
    have h2 := Index_ge contents connClose
    have h3 := Index_add_le contents connClose
    have h4 : (connClose.length : Int) = 14 := by decide
    by_cases hb : 0 ≤ Index contents connOpen + 13 ∧
        Index contents connOpen + 13 ≤ Index contents connClose - 1 ∧
        Index contents connClose - 1 ≤ (contents.length : Int)
    · simp only [ReadConfig, slice, hb, and_self, if_true, reduceCtorEq, false_iff]
      omega
    · simp only [ReadConfig, slice, hb, if_false, true_iff]
      by_contra hlt
      apply hb
      refine ⟨by omega, by omega, ?_⟩
      have := h3 (by omega)
      omega
  · have h : slice ([] : Str) (Index [] connOpen + 13) (Index [] connClose - 1) = none := by
      decide
    simp only [ReadConfig, h]
  · have h : slice "[connections][/connections]".toList
        (Index "[connections][/connections]".toList connOpen + 13)
        (Index "[connections][/connections]".toList connClose - 1) = none := by
      decide
    simp only [ReadConfig, h]

/-! ## Records that share a connection name -/

/-- C5: two `SyncConfig` calls from the reset file, the second with the
connection name `prod` of the first and another DSN, leave two lines with
`conn-name=prod` in the connections section, and the returned list holds two
instances named `prod`. -/
theorem SyncConfig_same_name_two_records :
    SyncConfig sampleStrdbms sampleDbmsstr
        [mkInstance 0 "a".toList "prod".toList] (ResetConfig none) =
      some (some "[connections]\n\ndbms=mysql dsn=a conn-name=prod\n[/connections]\n".toList,
            [mkInstance 0 "a".toList "prod".toList]) ∧
    SyncConfig sampleStrdbms sampleDbmsstr
        [mkInstance 0 "b".toList "prod".toList]
        (some "[connections]\n\ndbms=mysql dsn=a conn-name=prod\n[/connections]\n".toList) =
      some (some ("[connections]\n\ndbms=mysql dsn=a conn-name=prod\n".toList ++
                  "dbms=mysql dsn=b conn-name=prod\n[/connections]\n".toList),
            [mkInstance 0 "a".toList "prod".toList, mkInstance 0 "b".toList "prod".toList]) := by
  constructor <;> decide

/-! ## Instances that enter the collection unchecked -/

/-- C2: `ReadConfig` appends the instance of a line whose kind is not
recognised and that has no DSN, and `ReadArgs` appends an instance whose DSN
argument is the empty string. -/
theorem unchecked_instances_are_added :
    sampleDbmsstr "foo".toList = -1 ∧
    ReadConfig sampleDbmsstr
        (some "[connections]\n\ndbms=foo conn-name=x\n[/connections]\n".toList) [] =
      some ([mkInstance (-1) [] "x".toList], false) ∧
    ReadArgs sampleDbmsstr ["gotop".toList, "mysql".toList, [], "x".toList] [] =
      ArgsResult.ok [mkInstance 0 [] "x".toList] := by
  refine ⟨?_, ?_, ?_⟩ <;> decide

/-! ## ReadArgs -/

/-- C8, as stated, fails: with five tokens after the program name, the first
a recognised kind, `ReadArgs` raises the argument error. -/
theorem ReadArgs_five_tokens_rejected :
    (["gotop".toList, "mysql".toList, "d".toList, "n".toList, "g".toList,
        "x".toList] : List Str).length - 1 = 5 ∧
    sampleDbmsstr "mysql".toList ≠ -1 ∧
    ReadArgs sampleDbmsstr
      ["gotop".toList, "mysql".toList, "d".toList, "n".toList, "g".toList, "x".toList] [] =
      ArgsResult.argError := by
  refine ⟨?_, ?_, ?_⟩ <;> decide

/-- C8, amended: `ReadArgs` appends exactly one instance, of the kind and DSN
given by the first two tokens, without raising the argument error if and only
if the number of tokens after the program name is between 2 and 4 and the
first token is a recognised kind; in every other case it raises the argument
error. -/
theorem ReadArgs_accepts_iff (Dbmsstr : Str → Int) (args : List Str)
    (instances : List Instance) :
    ((∃ inst, ReadArgs Dbmsstr args instances = ArgsResult.ok (instances ++ [inst]) ∧
        inst.DBMS = Dbmsstr (args.getD 1 []) ∧ inst.DSN = args.getD 2 []) ↔
      (2 ≤ args.length - 1 ∧ args.length - 1 ≤ 4 ∧ Dbmsstr (args.getD 1 []) ≠ -1)) ∧
    (ReadArgs Dbmsstr args instances = ArgsResult.argError ↔
      ¬ (2 ≤ args.length - 1 ∧ args.length - 1 ≤ 4 ∧ Dbmsstr (args.getD 1 []) ≠ -1)) := by
  by_cases hlen : 2 < args.length ∧ args.length < 6
  · by_cases hk : Dbmsstr (args.getD 1 []) = -1
    · have hr : ReadArgs Dbmsstr args instances = ArgsResult.argError := by
        simp only [ReadArgs, ThrowArgError, hlen, hk, and_self, if_true]
      refine ⟨⟨?_, fun h => absurd hk h.2.2⟩, ⟨fun _ h => absurd hk h.2.2, fun _ => hr⟩⟩
      rintro ⟨inst, hi, _⟩
      rw [hr] at hi
      cases hi
    · have hc : 2 ≤ args.length - 1 ∧ args.length - 1 ≤ 4 ∧ Dbmsstr (args.getD 1 []) ≠ -1 :=
        ⟨by omega, by omega, hk⟩
      have hr : ∃ inst, ReadArgs Dbmsstr args instances = ArgsResult.ok (instances ++ [inst]) ∧
          inst.DBMS = Dbmsstr (args.getD 1 []) ∧ inst.DSN = args.getD 2 [] := by
        simp only [ReadArgs, hlen, hk, and_self, if_true, if_false]
        refine ⟨_, rfl, ?_, ?_⟩ <;> (split_ifs <;> rfl)
      refine ⟨⟨fun _ => hc, fun _ => hr⟩, ⟨fun h _ => ?_, fun h => absurd hc h⟩⟩
      obtain ⟨inst, hi, _⟩ := hr
      rw [hi] at h
      cases h
  · have hr : ReadArgs Dbmsstr args instances = ArgsResult.argError := by
      simp only [ReadArgs, ThrowArgError, hlen, if_false]
    have hc : ¬ (2 ≤ args.length - 1 ∧ args.length - 1 ≤ 4 ∧ Dbmsstr (args.getD 1 []) ≠ -1) := by
      intro h
      apply hlen
      omega
    refine ⟨⟨?_, fun h => absurd h hc⟩, ⟨fun _ => hc, fun _ => hr⟩⟩
    rintro ⟨inst, hi, _⟩
    rw [hr] at hi
    cases hi

/-! ## The keyboard subscriber -/

theorem onEnter_frame (env : Env) (s s1 : UI) (h : onEnter env s = some s1) :
    s1.State = s.State ∧ s1.Laststate = s.Laststate ∧ s1.LastInputTime = s.LastInputTime := by
  unfold onEnter at h
  dsimp only at h
  split_ifs at h <;> (try split at h) <;>
    first
    | (simp only [Option.some.injEq] at h; subst h; exact ⟨rfl, rfl, rfl⟩)
    | (simp only [reduceCtorEq] at h)

theorem onCtrlD_frame (env : Env) (s s1 : UI) (h : onCtrlD env s = some s1) :
    s1.State = s.State ∧ s1.Laststate = s.Laststate ∧ s1.LastInputTime = s.LastInputTime := by
  unfold onCtrlD at h
  split at h
  · simp only [reduceCtorEq] at h
  · simp only [Option.some.injEq] at h
    subst h
    exact ⟨rfl, rfl, rfl⟩



theorem keyninreader_processed (env : Env) (k : Key) (now : Int) (s : UI)
    (hp : dropped env now s = false) :
    keyninreader env k now s =
      (if k = Key.Enter then onEnter env { s with LastInputTime := now }
       else if k = Key.CtrlD then onCtrlD env { s with LastInputTime := now }
       else if k = Key.Rune '?' then
         if 0 < s.ActiveConns.length then
           some { s with LastInputTime := now, State := env.MENU, cancelled := true }
         else some { s with LastInputTime := now, errlog := [guardWarning] }
       else if k = Key.Esc then
         if 0 < s.ActiveConns.length then
           some { s with LastInputTime := now, State := s.Laststate, cancelled := true }
         else some { s with LastInputTime := now, errlog := [guardWarning] }
       else some { s with LastInputTime := now }) := by
  simp only [keyninreader, hp, Bool.false_eq_true, if_false]

theorem keyninreader_frame (env : Env) (k : Key) (now : Int) (s s1 : UI)
    (hp : dropped env now s = false) (h : keyninreader env k now s = some s1) :
    s1.LastInputTime = now ∧
    (s1.State = s.State ∨
      (0 < s.ActiveConns.length ∧
        ((k = Key.Rune '?' ∧ s1.State = env.MENU) ∨
         (k = Key.Esc ∧ s1.State = s.Laststate)))) := by
  rw [keyninreader_processed env k now s hp] at h
  split_ifs at h with h1 h2 h3 h4 h5 h6
  · have := onEnter_frame env _ s1 h
    exact ⟨this.2.2, Or.inl this.1⟩
  · have := onCtrlD_frame env _ s1 h
    exact ⟨this.2.2, Or.inl this.1⟩
  · simp only [Option.some.injEq] at h
    subst h
    exact ⟨rfl, Or.inr ⟨h4, Or.inl ⟨h3, rfl⟩⟩⟩
  · simp only [Option.some.injEq] at h
    subst h
    exact ⟨rfl, Or.inl rfl⟩
  · simp only [Option.some.injEq] at h
    subst h
    exact ⟨rfl, Or.inr ⟨h6, Or.inr ⟨h5, rfl⟩⟩⟩
  · simp only [Option.some.injEq] at h
    subst h
    exact ⟨rfl, Or.inl rfl⟩
  · simp only [Option.some.injEq] at h
    subst h
    exact ⟨rfl, Or.inl rfl⟩

/-- C3: for a key the rate limiter lets through, an empty `ActiveConns` leaves
`State` as it was, and the keys `?` and Esc then return with the warning as
the content of the status log; `State` changes only when `ActiveConns` is not
empty, to `MENU` on `?` and to `Laststate` on Esc, and with a non-empty
`ActiveConns` these two keys do set it so. -/
theorem setup_navigation_guard (env : Env) (k : Key) (now : Int) (s : UI)
    (hp : dropped env now s = false) :
    (s.ActiveConns = [] → ∀ s1, keyninreader env k now s = some s1 → s1.State = s.State) ∧
    (s.ActiveConns = [] → (k = Key.Rune '?' ∨ k = Key.Esc) →
      ∃ s1, keyninreader env k now s = some s1 ∧ s1.State = s.State ∧
        s1.errlog = [guardWarning]) ∧
    (∀ s1, keyninreader env k now s = some s1 → s1.State ≠ s.State →
      s.ActiveConns ≠ [] ∧
        ((k = Key.Rune '?' ∧ s1.State = env.MENU) ∨
         (k = Key.Esc ∧ s1.State = s.Laststate))) ∧
    (s.ActiveConns ≠ [] →
      (k = Key.Rune '?' → ∃ s1, keyninreader env k now s = some s1 ∧ s1.State = env.MENU) ∧
      (k = Key.Esc → ∃ s1, keyninreader env k now s = some s1 ∧ s1.State = s.Laststate)) := by
  refine ⟨?_, ?_, ?_, ?_⟩
  · intro he s1 h
    rcases (keyninreader_frame env k now s s1 hp h).2 with h1 | ⟨h1, _⟩
    · exact h1
    · simp [he] at h1
  · intro he hk
    rw [keyninreader_processed env k now s hp]
    rcases hk with hk | hk <;> subst hk <;> simp [he]
  · intro s1 h hne
    rcases (keyninreader_frame env k now s s1 hp h).2 with h1 | ⟨h1, h2⟩
    · exact absurd h1 hne
    · refine ⟨?_, h2⟩
      intro he
      simp [he] at h1
  · intro hne
    have hpos : 0 < s.ActiveConns.length := List.length_pos.mpr hne
    rw [keyninreader_processed env k now s hp]
    constructor <;> (intro hk; subst hk; simp [hpos])

/-- C3 at a concrete key: `?` on the set-up screen with no connection online,
one second after the last key. -/
theorem setup_navigation_guard_witness :
    dropped sampleEnv 1000000000 sampleUI = false ∧
    ∃ s1, keyninreader sampleEnv (Key.Rune '?') 1000000000 sampleUI = some s1 ∧
      s1.State = sampleUI.State ∧ s1.errlog = [guardWarning] :=
  ⟨by decide,
   (setup_navigation_guard sampleEnv (Key.Rune '?') 1000000000 sampleUI (by decide)).2.1
     rfl (Or.inl rfl)⟩

/-- With a setting whose value in nanoseconds fits `int64`, the test of the
rate limiter is the comparison of the exact numbers. -/
theorem dropped_iff (env : Env) (t : Int) (s : UI)
    (hfit : -9223372036854775808 < env.ratelim * 1000000 ∧
      env.ratelim * 1000000 < 9223372036854775808) :
    dropped env t s = true ↔ t - s.LastInputTime < env.ratelim * 1000000 := by
  have hw : wrapInt64 (env.ratelim * 1000000) = env.ratelim * 1000000 := by
    unfold wrapInt64
    omega
  unfold dropped
  rw [decide_eq_true_iff, hw]
  unfold timeSince
  split_ifs <;> omega

/-- C7, as stated, fails: with a rate limit of 100 ms, after a key handled at
time 0, the keys that arrive at 10 ms and at 20 ms are within the interval of
each other and both are dropped, so none of the two is processed; and with
the setting 9223372036855 the product with `time.Millisecond` wraps around to
a negative `int64`, so a key that arrives 10 ms after the last one is not
dropped. -/
theorem two_keys_both_dropped :
    dropped sampleEnv 0 { sampleUI with LastInputTime := -1000000000 } = false ∧
    keyninreader sampleEnv Key.Esc 0 { sampleUI with LastInputTime := -1000000000 } =
      some { sampleUI with errlog := [guardWarning] } ∧
    (20000000 : Int) - 10000000 < sampleEnv.ratelim * 1000000 ∧
    dropped sampleEnv 10000000 { sampleUI with errlog := [guardWarning] } = true ∧
    keyninreader sampleEnv Key.Esc 10000000 { sampleUI with errlog := [guardWarning] } =
      some { sampleUI with errlog := [guardWarning] } ∧
    dropped sampleEnv 20000000 { sampleUI with errlog := [guardWarning] } = true ∧
    keyninreader sampleEnv Key.Esc 20000000 { sampleUI with errlog := [guardWarning] } =
      some { sampleUI with errlog := [guardWarning] } ∧
    (10000000 : Int) - sampleUI.LastInputTime < 9223372036855 * 1000000 ∧
    wrapInt64 (9223372036855 * 1000000) = -9223372036854551616 ∧
    dropped { sampleEnv with ratelim := 9223372036855 } 10000000 sampleUI = false := by
  refine ⟨?_, ?_, ?_, ?_, ?_, ?_, ?_, ?_, ?_, ?_⟩ <;> decide

/-- C7, amended: for a rate-limiter setting whose value in nanoseconds
(the setting times 1000000) fits a signed 64-bit integer, a key that arrives
at time `t1` with `t1 - LastInputTime` below the rate limit is dropped and the
handler returns with the whole state as it was; a key that is not dropped
leaves `LastInputTime = t1` (and every key but Enter and Ctrl-D is sure to
return); of two keys that arrive within the rate-limit interval of each other
at most one is processed, and when the first is processed the second is
dropped. -/
theorem rate_limiter_at_most_one (env : Env) (k1 k2 : Key) (t1 t2 : Int) (s : UI)
    (hfit : -9223372036854775808 < env.ratelim * 1000000 ∧
      env.ratelim * 1000000 < 9223372036854775808) :
    (dropped env t1 s = true ↔ t1 - s.LastInputTime < env.ratelim * 1000000) ∧
    (dropped env t1 s = true → keyninreader env k1 t1 s = some s) ∧
    (dropped env t1 s = false →
      ∀ s1, keyninreader env k1 t1 s = some s1 → s1.LastInputTime = t1) ∧
    (dropped env t1 s = false → k1 ≠ Key.Enter → k1 ≠ Key.CtrlD →
      ∃ s1, keyninreader env k1 t1 s = some s1) ∧
    (t1 ≤ t2 → t2 - t1 < env.ratelim * 1000000 →
      ∀ s1, keyninreader env k1 t1 s = some s1 →
        ¬ (dropped env t1 s = false ∧ dropped env t2 s1 = false) ∧
        (dropped env t1 s = false →
          dropped env t2 s1 = true ∧ keyninreader env k2 t2 s1 = some s1)) := by
  have hdrop : ∀ (k : Key) (t : Int) (u : UI), dropped env t u = true →
      keyninreader env k t u = some u := by
    intro k t u h
    simp only [keyninreader, h, if_true]
  refine ⟨dropped_iff env t1 s hfit, hdrop k1 t1 s, ?_, ?_, ?_⟩
  · intro hp s1 h
    exact (keyninreader_frame env k1 t1 s s1 hp h).1
  · intro hp h1 h2
    rw [keyninreader_processed env k1 t1 s hp]
    simp only [h1, h2, if_false]
    split_ifs <;> exact ⟨_, rfl⟩
  · intro _ hnear s1 h
    have key : dropped env t1 s = false → dropped env t2 s1 = true := by
      intro hp
      have hl := (keyninreader_frame env k1 t1 s s1 hp h).1
      rw [dropped_iff env t2 s1 hfit, hl]
      exact hnear
    refine ⟨?_, fun hp => ⟨key hp, hdrop k2 t2 s1 (key hp)⟩⟩
    rintro ⟨hp, hq⟩
    rw [key hp] at hq
    cases hq

/-- C7 amended, at concrete keys: Esc at time 0 is processed, Esc 10 ms later
is dropped. -/
theorem rate_limiter_at_most_one_witness :
    dropped sampleEnv 10000000 { sampleUI with errlog := [guardWarning] } = true ∧
    keyninreader sampleEnv Key.Esc 10000000 { sampleUI with errlog := [guardWarning] } =
      some { sampleUI with errlog := [guardWarning] } :=
  ((rate_limiter_at_most_one sampleEnv Key.Esc Key.Esc 0 10000000
      { sampleUI with LastInputTime := -1000000000 } (by decide)).2.2.2.2
    (by decide) (by decide) { sampleUI with errlog := [guardWarning] } (by decide)).2 (by decide)

/-! ## Split and Join -/

theorem Split_ne_nil (sep : Char) : ∀ s : Str, Split sep s ≠ []
  | [] => by simp [Split]
  | c :: cs => by
    have ih := Split_ne_nil sep cs
    simp only [Split]
    split_ifs
    · simp
    · split <;> simp

theorem Split_cons_of_ne (sep c : Char) (cs : Str) (h : c ≠ sep) :
    Split sep (c :: cs) = (c :: (Split sep cs).headD []) :: (Split sep cs).tail := by
  have ih := Split_ne_nil sep cs
  simp only [Split, h, if_false]
  split
  · rename_i heq
    exact absurd heq ih
  · rename_i l ls heq
    simp [heq]

theorem Split_cons_sep (sep : Char) (cs : Str) :
    Split sep (sep :: cs) = [] :: Split sep cs := by
  simp [Split]

theorem Split_no_sep (sep : Char) : ∀ (s : Str) (l : Str), l ∈ Split sep s → sep ∉ l
  | [], l, h => by
    simp only [Split, List.mem_singleton] at h
    subst h
    simp
  | c :: cs, l, h => by
    by_cases hc : c = sep
    · subst hc
      rw [Split_cons_sep] at h
      rcases List.mem_cons.mp h with h | h
      · subst h
        simp
      · exact Split_no_sep c cs l h
    · rw [Split_cons_of_ne sep c cs hc] at h
      have hne := Split_ne_nil sep cs
      cases hs : Split sep cs with
      | nil => exact absurd hs hne
      | cons l0 ls =>
        rw [hs] at h
        simp only [List.headD_cons, List.tail_cons, List.mem_cons] at h
        rcases h with h | h
        · subst h
          have := Split_no_sep sep cs l0 (by rw [hs]; simp)
          intro hmem
          rcases List.mem_cons.mp hmem with h1 | h1
          · exact hc h1.symm
          · exact this h1
        · exact Split_no_sep sep cs l (by rw [hs]; simp [h])

theorem Split_of_no_sep (sep : Char) : ∀ (l : Str), sep ∉ l → Split sep l = [l]
  | [], _ => by simp [Split]
  | c :: cs, h => by
    have hc : c ≠ sep := fun e => h (by simp [e])
    have ih := Split_of_no_sep sep cs (fun e => h (by simp [e]))
    rw [Split_cons_of_ne sep c cs hc, ih]
    simp

theorem Split_append_sep (sep : Char) : ∀ (l rest : Str), sep ∉ l →
    Split sep (l ++ sep :: rest) = l :: Split sep rest
  | [], rest, _ => by simp [Split]
  | c :: cs, rest, h => by
    have hc : c ≠ sep := fun e => h (by simp [e])
    have ih := Split_append_sep sep cs rest (fun e => h (by simp [e]))
    rw [List.cons_append, Split_cons_of_ne sep c _ hc, ih]
    simp

theorem Join_cons (sep : Char) (l : Str) (ls : List Str) (h : ls ≠ []) :
    Join sep (l :: ls) = l ++ sep :: Join sep ls := by
  cases ls with
  | nil => exact absurd rfl h
  | cons m ms => simp [Join]

theorem Join_Split (sep : Char) : ∀ s : Str, Join sep (Split sep s) = s
  | [] => by simp [Split, Join]
  | c :: cs => by
    have ih := Join_Split sep cs
    have hne := Split_ne_nil sep cs
    by_cases hc : c = sep
    · subst hc
      rw [Split_cons_sep, Join_cons _ _ _ hne, ih]
      simp
    · rw [Split_cons_of_ne sep c cs hc]
      cases hs : Split sep cs with
      | nil => exact absurd hs hne
      | cons l0 ls =>
        rw [hs] at ih
        simp only [List.headD_cons, List.tail_cons]
        cases ls with
        | nil =>
          simp only [Join] at ih ⊢
          rw [ih]
        | cons m ms =>
          simp only [Join] at ih ⊢
          rw [← ih]
          simp

theorem Split_Join (sep : Char) : ∀ (ls : List Str), ls ≠ [] → (∀ l ∈ ls, sep ∉ l) →
    Split sep (Join sep ls) = ls
  | [], h, _ => absurd rfl h
  | [l], _, hl => by
    simp only [Join]
    exact Split_of_no_sep sep l (hl l (by simp))
  | l :: m :: ms, _, hl => by
    have ih := Split_Join sep (m :: ms) (by simp) (fun x hx => hl x (by simp [hx]))
    simp only [Join]
    rw [Split_append_sep sep l _ (hl l (by simp)), ih]



/-! ## CleanConfig -/

theorem cleanStep_foldl : ∀ (lines u o before : List Str),
    (∀ l, l ∈ u ↔ l ∈ before) → (∀ l ∈ lines, l ≠ "\n".toList) →
    (lines.foldl cleanStep (u, o)).2 = o ++ keptLines before lines
  | [], u, o, before, _, _ => by simp [keptLines]
  | l :: rest, u, o, before, hu, hl => by
    have hnl : ¬ l = ['\n'] := hl l (by simp)
    have hrest : ∀ x ∈ rest, x ≠ "\n".toList := fun x hx => hl x (by simp [hx])
    have hadd : ∀ x, x ∈ l :: u ↔ x ∈ before ++ [l] := by
      intro x
      simp only [List.mem_cons, List.mem_append, List.mem_singleton, hu x]
      tauto
    simp only [List.foldl_cons, keptLines]
    by_cases he : l = []
    · have h1 : cleanStep (u, o) l = (l :: u, o ++ [l]) := by simp [cleanStep, he]
      rw [h1, cleanStep_foldl rest (l :: u) (o ++ [l]) (before ++ [l]) hadd hrest]
      simp [he]
    · by_cases hm : l ∈ u
      · have h1 : cleanStep (u, o) l = (u, o) := by simp [cleanStep, he, hnl, hm]
        have hsame : ∀ x, x ∈ u ↔ x ∈ before ++ [l] := by
          intro x
          simp only [List.mem_append, List.mem_singleton, ← hu x]
          constructor
          · exact Or.inl
          · rintro (h | h)
            · exact h
            · exact h ▸ hm
        have hb : l ∈ before := (hu l).mp hm
        rw [h1, cleanStep_foldl rest u o (before ++ [l]) hsame hrest]
        simp [he, hb]
      · have h1 : cleanStep (u, o) l = (l :: u, o ++ [l]) := by
          simp [cleanStep, he, hnl, hm]
        have hb : l ∉ before := fun h => hm ((hu l).mpr h)
        rw [h1, cleanStep_foldl rest (l :: u) (o ++ [l]) (before ++ [l]) hadd hrest]
        simp [hb]

theorem keptLines_sublist : ∀ (ls before : List Str), List.Sublist (keptLines before ls) ls
  | [], _ => by simp [keptLines]
  | l :: rest, before => by
    have ih := keptLines_sublist rest (before ++ [l])
    simp only [keptLines]
    split_ifs
    · exact ih.cons₂ l
    · exact ih.cons l

theorem keptLines_mem : ∀ (ls before : List Str) (x : Str),
    x ∈ ls → x ∈ keptLines before ls ∨ x ∈ before
  | [], _, _, h => by simp at h
  | l :: rest, before, x, h => by
    simp only [keptLines]
    rcases List.mem_cons.mp h with hx | hx
    · subst hx
      split_ifs with hc
      · exact Or.inl (by simp)
      · right
        by_contra hb
        exact hc (Or.inr hb)
    · rcases keptLines_mem rest (before ++ [l]) x hx with ih | ih
      · left
        split_ifs
        · exact List.mem_cons_of_mem _ ih
        · exact ih
      · rcases List.mem_append.mp ih with h1 | h1
        · exact Or.inr h1
        · have hxl : x = l := by simpa using h1
          subst hxl
          split_ifs with hc
          · exact Or.inl (by simp)
          · right
            by_contra hb
            exact hc (Or.inr hb)

theorem keptLines_count : ∀ (ls before : List Str) (x : Str), x ≠ [] →
    (keptLines before ls).count x ≤ 1 ∧ (x ∈ before → (keptLines before ls).count x = 0)
  | [], _, _, _ => by simp [keptLines]
  | l :: rest, before, x, hx => by
    have ih := keptLines_count rest (before ++ [l]) x hx
    simp only [keptLines]
    by_cases hxl : l = x
    · subst hxl
      have h0 : (keptLines (before ++ [l]) rest).count l = 0 := ih.2 (by simp)
      by_cases hb : l ∈ before
      · simp [hx, hb, h0]
      · simp [hb, h0]
    · have hb : x ∈ before → x ∈ before ++ [l] := fun h => List.mem_append_left _ h
      split_ifs
      · rw [List.count_cons_of_ne (Ne.symm hxl)]
        exact ⟨ih.1, fun h => ih.2 (hb h)⟩
      · exact ⟨ih.1, fun h => ih.2 (hb h)⟩

theorem keptLines_count_nil : ∀ (ls before : List Str),
    (keptLines before ls).count [] = ls.count []
  | [], _ => by simp [keptLines]
  | l :: rest, before => by
    have ih := keptLines_count_nil rest (before ++ [l])
    simp only [keptLines]
    by_cases he : l = []
    · subst he
      simp [ih]
    · split_ifs
      · rw [List.count_cons_of_ne (Ne.symm he), List.count_cons_of_ne (Ne.symm he), ih]
      · rw [List.count_cons_of_ne (Ne.symm he), ih]

theorem keptLines_ne_nil (l : Str) (rest : List Str) : keptLines [] (l :: rest) ≠ [] := by
  simp [keptLines]

theorem cleanContent_lines (content : Str) :
    Split '\n' (cleanContent content) = keptLines [] (Split '\n' content) := by
  have hnl : ∀ l ∈ Split '\n' content, l ≠ "\n".toList := by
    intro l hl he
    have := Split_no_sep '\n' content l hl
    rw [he] at this
    exact this (by decide)
  have hfold := cleanStep_foldl (Split '\n' content) [] [] [] (by simp) hnl
  simp only [cleanContent, hfold, List.nil_append]
  apply Split_Join
  · cases hs : Split '\n' content with
    | nil => exact absurd hs (Split_ne_nil _ _)
    | cons l rest => exact keptLines_ne_nil l rest
  · intro l hl
    exact Split_no_sep '\n' content l ((keptLines_sublist _ _).subset hl)

/-- C9: the content `CleanConfig` writes back has as its lines the lines of
the content it read, each kept when it is empty or has not occurred before, in
their order; so these lines are a sublist of the input lines, no non-empty
line occurs twice among them, every input line occurs among them and the
empty lines are as many as before. -/
theorem CleanConfig_removes_duplicates (content : Str) :
    CleanConfig (some content) = some (some (cleanContent content)) ∧
    Split '\n' (cleanContent content) = keptLines [] (Split '\n' content) ∧
    List.Sublist (Split '\n' (cleanContent content)) (Split '\n' content) ∧
    (∀ l : Str, l ≠ [] → (Split '\n' (cleanContent content)).count l ≤ 1) ∧
    (∀ l : Str, l ∈ Split '\n' content → l ∈ Split '\n' (cleanContent content)) ∧
    (Split '\n' (cleanContent content)).count [] = (Split '\n' content).count [] := by
  rw [cleanContent_lines]
  refine ⟨rfl, rfl, keptLines_sublist _ _, ?_, ?_, keptLines_count_nil _ _⟩
  · intro l hl
    exact (keptLines_count _ _ l hl).1
  · intro l hl
    rcases keptLines_mem _ [] l hl with h | h
    · exact h
    · simp at h

/-! ## Where the closing marker is found -/

theorem startsWith_append_sep (sep : Char) : ∀ (l rest sub : Str), sep ∉ sub →
    startsWith (l ++ sep :: rest) sub = true → startsWith l sub = true
  | _, _, [], _, _ => by simp [startsWith]
  | [], rest, d :: ds, hs, h => by
    simp only [List.nil_append, startsWith, Bool.and_eq_true, beq_iff_eq] at h
    exact absurd (by simp [h.1]) hs
  | c :: cs, rest, d :: ds, hs, h => by
    simp only [List.cons_append, startsWith, Bool.and_eq_true, beq_iff_eq] at h
    simp only [startsWith, Bool.and_eq_true, beq_iff_eq]
    exact ⟨h.1, startsWith_append_sep sep cs rest ds (fun e => hs (by simp [e])) h.2⟩

theorem startsWith_append (x : Str) : ∀ (l sub : Str),
    startsWith l sub = true → startsWith (l ++ x) sub = true
  | _, [], _ => by simp [startsWith]
  | [], _ :: _, h => by simp [startsWith] at h
  | c :: cs, d :: ds, h => by
    simp only [startsWith, Bool.and_eq_true, beq_iff_eq] at h
    simp only [List.cons_append, startsWith, Bool.and_eq_true, beq_iff_eq]
    exact ⟨h.1, startsWith_append x cs ds h.2⟩

theorem startsWith_self_append : ∀ (sub x : Str), startsWith (sub ++ x) sub = true
  | [], x => by cases x <;> simp [startsWith]
  | d :: ds, x => by
    simp only [List.cons_append, startsWith, Bool.and_eq_true, beq_iff_eq, true_and]
    exact startsWith_self_append ds x

theorem indexNat_of_startsWith (sub s : Str) (h : startsWith s sub = true) :
    indexNat sub s = some 0 := by
  cases s <;> simp [indexNat, h]

/-- A line without the text `sub` is skipped by the search. -/
theorem indexNat_skip_line (sep : Char) (sub : Str) (hsub : sub ≠ []) (hsep : sep ∉ sub) :
    ∀ (l rest : Str), indexNat sub l = none →
      indexNat sub (l ++ sep :: rest) = (indexNat sub rest).map (· + (l.length + 1))
  | [], rest, _ => by
    have h0 : startsWith (sep :: rest) sub = false := by
      cases sub with
      | nil => exact absurd rfl hsub
      | cons d ds =>
        have : sep ≠ d := fun e => hsep (by simp [e])
        simp [startsWith, this]
    simp [indexNat, h0]
  | c :: cs, rest, h => by
    simp only [indexNat] at h
    split_ifs at h with h1
    have h2 : indexNat sub cs = none := by
      cases hq : indexNat sub cs with
      | none => rfl
      | some j => simp [hq] at h
    have h3 : startsWith (c :: cs ++ sep :: rest) sub = false := by
      by_contra hc
      have := startsWith_append_sep sep (c :: cs) rest sub hsep (by simpa using hc)
      exact h1 this
    have ih := indexNat_skip_line sep sub hsub hsep cs rest h2
    have h4 : startsWith (c :: (cs ++ sep :: rest)) sub = false := h3
    have h5 : indexNat sub (c :: (cs ++ sep :: rest)) =
        (indexNat sub (cs ++ sep :: rest)).map (· + 1) := by
      simp only [indexNat, h4, Bool.false_eq_true, if_false]
    rw [List.cons_append, h5, ih, Option.map_map]
    congr 1

/-- The search skips a block of lines none of which holds the text. -/
theorem indexNat_unlines (sub : Str) (hsub : sub ≠ []) (hsep : '\n' ∉ sub) :
    ∀ (ls : List Str) (rest : Str), (∀ l ∈ ls, indexNat sub l = none) →
      indexNat sub (unlines ls ++ rest) = (indexNat sub rest).map (· + (unlines ls).length)
  | [], rest, _ => by simp [unlines]
  | l :: ls, rest, h => by
    have ih := indexNat_unlines sub hsub hsep ls rest (fun x hx => h x (by simp [hx]))
    have h1 := indexNat_skip_line '\n' sub hsub hsep l (unlines ls ++ rest) (h l (by simp))
    simp only [unlines, List.append_assoc, List.cons_append, h1, ih, Option.map_map,
      List.length_append, List.length_cons]
    congr 1
    funext n
    simp only [Function.comp]
    omega

theorem connClose_ne_nil : connClose ≠ [] := by decide

theorem connClose_no_newline : '\n' ∉ connClose := by decide

theorem Index_eq_neg_one (s sub : Str) : Index s sub = -1 ↔ indexNat sub s = none := by
  unfold Index
  split
  · rename_i i hi
    simp only [hi, reduceCtorEq, iff_false]
  · rename_i hi
    simp [hi]

theorem Index_eq_natCast (s sub : Str) (n : Nat) :
    Index s sub = (n : Int) ↔ indexNat sub s = some n := by
  unfold Index
  split
  · rename_i i hi
    simp only [hi, Option.some.injEq]
    omega
  · rename_i hi
    simp only [hi, reduceCtorEq, iff_false]

/-- In a file made of marker-free lines, the closing marker and a tail, the
marker is found right after the lines. -/
theorem indexNat_block (ls : List Str) (tl : Str)
    (h : ∀ l ∈ ls, indexNat connClose l = none) :
    indexNat connClose (unlines ls ++ (connClose ++ tl)) = some (unlines ls).length := by
  rw [indexNat_unlines connClose connClose_ne_nil connClose_no_newline ls _ h,
    indexNat_of_startsWith _ _ (startsWith_self_append connClose tl)]
  simp

theorem slice_zero_left (a b : Str) : slice (a ++ b) 0 (a.length : Int) = some a := by
  have h : (0 : Int) ≤ 0 ∧ (0 : Int) ≤ (a.length : Int) ∧
      (a.length : Int) ≤ ((a ++ b).length : Int) := by
    refine ⟨le_refl _, by omega, ?_⟩
    simp only [List.length_append]
    omega
  simp only [slice, h, and_self, if_true, Int.toNat_ofNat, Int.toNat_zero, List.drop_zero,
    List.take_left' rfl]

theorem slice_right (a b : Str) :
    slice (a ++ b) (a.length : Int) ((a ++ b).length : Int) = some b := by
  have h : (0 : Int) ≤ (a.length : Int) ∧ (a.length : Int) ≤ ((a ++ b).length : Int) ∧
      ((a ++ b).length : Int) ≤ ((a ++ b).length : Int) := by
    refine ⟨by omega, ?_, le_refl _⟩
    simp only [List.length_append]
    omega
  simp only [slice, h, and_self, if_true, Int.toNat_ofNat, List.take_length,
    List.drop_left' rfl]

/-- What `WriteConfig` does to a file whose first closing marker follows the
text `before`. -/
theorem WriteConfig_at (Strdbms : Int → Str) (inst : Instance) (before tl : Str)
    (h : indexNat connClose (before ++ (connClose ++ tl)) = some before.length) :
    WriteConfig Strdbms inst (some (before ++ (connClose ++ tl))) =
      some (some (before ++ configLine Strdbms inst ++ "\n".toList ++ (connClose ++ tl)),
            false) := by
  have hi : Index (before ++ (connClose ++ tl)) connClose = (before.length : Int) :=
    (Index_eq_natCast _ _ _).mpr h
  simp only [WriteConfig, hi, slice_zero_left, slice_right]

theorem unlines_append : ∀ (xs ys : List Str), unlines (xs ++ ys) = unlines xs ++ unlines ys
  | [], ys => by simp [unlines]
  | x :: xs, ys => by simp [unlines, unlines_append xs ys]

/-- The write loop of `SyncConfig` appends the lines of the instances to a
block of marker-free lines that ends at the closing marker. -/
theorem writeAll_block (Strdbms : Int → Str) : ∀ (insts : List Instance) (ls : List Str)
    (tl : Str), (∀ l ∈ ls, indexNat connClose l = none) →
    (∀ i ∈ insts, indexNat connClose (configLine Strdbms i) = none) →
    writeAll Strdbms insts (some (unlines ls ++ (connClose ++ tl))) =
      some (some (unlines (ls ++ insts.map (configLine Strdbms)) ++ (connClose ++ tl)))
  | [], ls, tl, _, _ => by simp [writeAll]
  | i :: rest, ls, tl, hls, hin => by
    have hw := WriteConfig_at Strdbms i (unlines ls) tl (indexNat_block ls tl hls)
    have hls2 : ∀ l ∈ ls ++ [configLine Strdbms i], indexNat connClose l = none := by
      intro l hl
      rcases List.mem_append.mp hl with h | h
      · exact hls l h
      · rw [List.mem_singleton.mp h]
        exact hin i (by simp)
    have ih := writeAll_block Strdbms rest (ls ++ [configLine Strdbms i]) tl hls2
      (fun j hj => hin j (by simp [hj]))
    have he : unlines ls ++ configLine Strdbms i ++ "\n".toList ++ (connClose ++ tl) =
        unlines (ls ++ [configLine Strdbms i]) ++ (connClose ++ tl) := by
      simp [unlines_append, unlines]
    rw [he] at hw
    simp only [writeAll, hw, ih, List.map_cons, List.append_assoc, List.singleton_append]

/-! ## Reading back what `WriteConfig` wrote -/

theorem TrimSpace_eq_self (s : Str) (hh : ∀ c, s.head? = some c → isSpace c = false)
    (hl : ∀ c, s.getLast? = some c → isSpace c = false) : TrimSpace s = s := by
  cases s with
  | nil => rfl
  | cons a t =>
    have h1 : List.dropWhile isSpace (a :: t) = a :: t := by
      simp [List.dropWhile, hh a rfl]
    have h2 : (a :: t).reverse.head? = (a :: t).getLast? := List.head?_reverse _
    unfold TrimSpace
    rw [h1]
    cases hr : (a :: t).reverse with
    | nil => simp at hr
    | cons z r =>
      rw [hr] at h2
      have hz : isSpace z = false := hl z (by simpa using h2.symm)
      have h3 : List.dropWhile isSpace (z :: r) = z :: r := by
        simp [List.dropWhile, hz]
      rw [h3, ← hr, List.reverse_reverse]

theorem cleanValue_mem (v : Str) (h : cleanValue v = true) (c : Char) (hc : c ∈ v) :
    isSpace c = false ∧ c ≠ '=' := by
  simp only [cleanValue, List.all_eq_true, Bool.and_eq_true, Bool.not_eq_true',
    bne_iff_ne] at h
  exact h c hc

theorem cleanValue_no_eq (v : Str) (h : cleanValue v = true) : '=' ∉ v :=
  fun hm => (cleanValue_mem v h _ hm).2 rfl

theorem cleanValue_no_space (v : Str) (h : cleanValue v = true) : ' ' ∉ v := by
  intro hm
  have := (cleanValue_mem v h _ hm).1
  exact absurd this (by decide)

theorem cleanValue_no_newline (v : Str) (h : cleanValue v = true) : '\n' ∉ v := by
  intro hm
  have := (cleanValue_mem v h _ hm).1
  exact absurd this (by decide)

theorem cleanValue_TrimSpace (v : Str) (h : cleanValue v = true) : TrimSpace v = v := by
  apply TrimSpace_eq_self
  · intro c hc
    exact (cleanValue_mem v h c (List.mem_of_mem_head? hc)).1
  · intro c hc
    exact (cleanValue_mem v h c (List.mem_of_getLast?_eq_some hc)).1

/-- The last character of `key=value` for a clean value is no space. -/
theorem pair_last (key value : Str) (hv : cleanValue value = true) (c : Char)
    (hc : (key ++ '=' :: value).getLast? = some c) : isSpace c = false := by
  cases hvl : value.getLast? with
  | none =>
    have hnil : value = [] := by simpa using hvl
    subst hnil
    rw [List.getLast?_concat] at hc
    cases hc
    decide
  | some z =>
    have : (key ++ '=' :: value).getLast? = some z := by
      rw [List.getLast?_append, List.getLast?_cons, hvl]
      simp
    rw [this] at hc
    have hzc : z = c := by simpa using hc
    rw [← hzc]
    exact (cleanValue_mem value hv z (List.mem_of_getLast?_eq_some hvl)).1

/-- One pass of the inner loop of `ReadConfig` over a pair `key=value` with a
clean, non-empty key and a clean value. -/
theorem readPair_key_value (Dbmsstr : Str → Int) (inst : Instance) (key value : Str)
    (hk0 : key ≠ []) (hk : cleanValue key = true) (hv : cleanValue value = true) :
    readPair Dbmsstr inst (key ++ '=' :: value) =
      (if key = "dbms".toList then { inst with DBMS := Dbmsstr value }
       else if key = "dsn".toList then { inst with DSN := value }
       else if key = "conn-name".toList then { inst with ConnName := value }
       else inst) := by
  have ht : TrimSpace (key ++ '=' :: value) = key ++ '=' :: value := by
    apply TrimSpace_eq_self
    · intro c hc
      cases key with
      | nil => exact absurd rfl hk0
      | cons a t =>
        simp only [List.cons_append, List.head?_cons, Option.some.injEq] at hc
        subst hc
        exact (cleanValue_mem _ hk a (by simp)).1
    · exact pair_last key value hv
  have hne : key ++ '=' :: value ≠ [] := by simp
  have hs : Split '=' (key ++ '=' :: value) = [key, value] := by
    rw [Split_append_sep '=' key value (cleanValue_no_eq key hk),
      Split_of_no_sep '=' value (cleanValue_no_eq value hv)]
  simp only [readPair, ht, hne, if_false, hs, cleanValue_TrimSpace key hk,
    cleanValue_TrimSpace value hv]

theorem configLine_eq (Strdbms : Int → Str) (i : Instance) :
    configLine Strdbms i =
      ("dbms".toList ++ '=' :: Strdbms i.DBMS) ++ ' ' ::
        (("dsn".toList ++ '=' :: i.DSN) ++ ' ' :: ("conn-name".toList ++ '=' :: i.ConnName)) := by
  simp [configLine]

theorem pair_no_space (key value : Str) (hk : ' ' ∉ key) (hv : cleanValue value = true) :
    ' ' ∉ key ++ '=' :: value := by
  intro h
  rcases List.mem_append.mp h with h1 | h1
  · exact hk h1
  · rcases List.mem_cons.mp h1 with h2 | h2
    · exact absurd h2 (by decide)
    · exact cleanValue_no_space value hv h2

/-- One pass of the outer loop of `ReadConfig` over the line `WriteConfig`
wrote for an instance with clean values. -/
theorem readLine_configLine (Strdbms : Int → Str) (Dbmsstr : Str → Int)
    (acc : List Instance) (i : Instance)
    (hs : cleanValue (Strdbms i.DBMS) = true) (hd : cleanValue i.DSN = true)
    (hn : cleanValue i.ConnName = true) :
    readLine Dbmsstr acc (configLine Strdbms i) =
      acc ++ [mkInstance (Dbmsstr (Strdbms i.DBMS)) i.DSN i.ConnName] := by
  have ht : TrimSpace (configLine Strdbms i) = configLine Strdbms i := by
    apply TrimSpace_eq_self
    · intro c hc
      simp only [configLine_eq, List.cons_append, List.head?_cons, Option.some.injEq,
        String.toList] at hc
      subst hc
      decide
    · intro c hc
      have he : configLine Strdbms i =
          (("dbms".toList ++ '=' :: Strdbms i.DBMS) ++ ' ' ::
            (("dsn".toList ++ '=' :: i.DSN) ++ " conn-name".toList)) ++ '=' :: i.ConnName := by
        simp [configLine]
      rw [he] at hc
      exact pair_last _ _ hn c hc
  have hne : configLine Strdbms i ≠ [] := by simp [configLine_eq]
  have hnl : configLine Strdbms i ≠ "\n".toList := by
    intro h
    simp [configLine] at h
  have hsplit : Split ' ' (configLine Strdbms i) =
      ["dbms".toList ++ '=' :: Strdbms i.DBMS, "dsn".toList ++ '=' :: i.DSN,
       "conn-name".toList ++ '=' :: i.ConnName] := by
    rw [configLine_eq,
      Split_append_sep ' ' _ _ (pair_no_space _ _ (by decide) hs),
      Split_append_sep ' ' _ _ (pair_no_space _ _ (by decide) hd),
      Split_of_no_sep ' ' _ (pair_no_space _ _ (by decide) hn)]
  have h1 := readPair_key_value Dbmsstr Instance.zero "dbms".toList (Strdbms i.DBMS)
    (by decide) (by decide) hs
  have h2 := fun inst => readPair_key_value Dbmsstr inst "dsn".toList i.DSN
    (by decide) (by decide) hd
  have h3 := fun inst => readPair_key_value Dbmsstr inst "conn-name".toList i.ConnName
    (by decide) (by decide) hn
  have k2 : ("dsn".toList = "dbms".toList) = False := by decide
  have k3 : ("conn-name".toList = "dbms".toList) = False := by decide
  have k4 : ("conn-name".toList = "dsn".toList) = False := by decide
  simp only [readLine, ht, hne, hnl, or_self, if_false, hsplit, List.foldl_cons,
    List.foldl_nil, h1, h2, h3, if_true, k2, k3, k4]
  rfl

theorem unlines_eq_Join : ∀ (ls : List Str), ls ≠ [] →
    unlines ls = Join '\n' ls ++ ['\n']
  | [], h => absurd rfl h
  | [l], _ => by simp [unlines, Join]
  | l :: m :: ms, _ => by
    have ih := unlines_eq_Join (m :: ms) (by simp)
    rw [unlines, ih]
    simp [Join]

theorem slice_mid (a b c : Str) :
    slice (a ++ (b ++ c)) (a.length : Int) ((a.length : Int) + (b.length : Int)) = some b := by
  have h : (0 : Int) ≤ (a.length : Int) ∧
      (a.length : Int) ≤ (a.length : Int) + (b.length : Int) ∧
      (a.length : Int) + (b.length : Int) ≤ ((a ++ (b ++ c)).length : Int) := by
    refine ⟨by omega, by omega, ?_⟩
    simp only [List.length_append]
    omega
  have h1 : ((a.length : Int) + (b.length : Int)).toNat = (a ++ b).length := by
    simp only [List.length_append]
    omega
  have h2 : List.take (a ++ b).length (a ++ (b ++ c)) = a ++ b := by
    rw [← List.append_assoc]
    exact List.take_left' rfl
  simp only [slice, h, and_self, if_true, h1, h2, Int.toNat_ofNat, List.drop_left' rfl]

theorem readLine_nil (Dbmsstr : Str → Int) (acc : List Instance) :
    readLine Dbmsstr acc [] = acc := by
  have h : TrimSpace [] = [] := rfl
  simp [readLine, h]

theorem foldl_readLine_configLines (Strdbms : Int → Str) (Dbmsstr : Str → Int) :
    ∀ (insts acc : List Instance),
    (∀ i ∈ insts, cleanValue (Strdbms i.DBMS) = true ∧ cleanValue i.DSN = true ∧
      cleanValue i.ConnName = true) →
    (insts.map (configLine Strdbms)).foldl (readLine Dbmsstr) acc =
      acc ++ insts.map (fun i => mkInstance (Dbmsstr (Strdbms i.DBMS)) i.DSN i.ConnName)
  | [], acc, _ => by simp
  | i :: rest, acc, h => by
    obtain ⟨hs, hd, hn⟩ := h i (by simp)
    have ih := foldl_readLine_configLines Strdbms Dbmsstr rest
      (acc ++ [mkInstance (Dbmsstr (Strdbms i.DBMS)) i.DSN i.ConnName])
      (fun j hj => h j (by simp [hj]))
    simp only [List.map_cons, List.foldl_cons,
      readLine_configLine Strdbms Dbmsstr acc i hs hd hn, ih, List.append_assoc,
      List.singleton_append]

/-- What `ReadConfig` makes of a file that starts with the opening marker and
an empty line, goes on with marker-free lines and then has the closing
marker. -/
theorem ReadConfig_block (Dbmsstr : Str → Int) (ls : List Str) (tl : Str)
    (acc : List Instance) (hm : ∀ l ∈ ls, indexNat connClose l = none)
    (hn : ∀ l ∈ ls, '\n' ∉ l) :
    ReadConfig Dbmsstr (some (unlines (connOpen :: [] :: ls) ++ (connClose ++ tl))) acc =
      some (ls.foldl (readLine Dbmsstr) acc, false) := by
  have hm2 : ∀ l ∈ connOpen :: [] :: ls, indexNat connClose l = none := by
    intro l hl
    rcases List.mem_cons.mp hl with h | h
    · subst h
      decide
    · rcases List.mem_cons.mp h with h | h
      · subst h
        decide
      · exact hm l h
  have hclose : Index (unlines (connOpen :: [] :: ls) ++ (connClose ++ tl)) connClose =
      ((unlines (connOpen :: [] :: ls)).length : Int) :=
    (Index_eq_natCast _ _ _).mpr (indexNat_block _ tl hm2)
  have hshape : unlines (connOpen :: [] :: ls) =
      connOpen ++ (Join '\n' ([] :: [] :: ls) ++ ['\n']) := by
    rw [← unlines_eq_Join ([] :: [] :: ls) (by simp)]
    simp [unlines]
  have hopen : Index (unlines (connOpen :: [] :: ls) ++ (connClose ++ tl)) connOpen = 0 := by
    have h0 : indexNat connOpen (unlines (connOpen :: [] :: ls) ++ (connClose ++ tl)) =
        some 0 := by
      apply indexNat_of_startsWith
      rw [hshape, List.append_assoc]
      exact startsWith_self_append _ _
    exact_mod_cast (Index_eq_natCast _ _ 0).mpr h0
  have hlen : ((unlines (connOpen :: [] :: ls)).length : Int) - 1 =
      (connOpen.length : Int) + ((Join '\n' ([] :: [] :: ls)).length : Int) := by
    rw [hshape]
    simp only [List.length_append, List.length_singleton]
    push_cast
    omega
  have h13 : (0 : Int) + 13 = (connOpen.length : Int) := by decide
  have hfile : unlines (connOpen :: [] :: ls) ++ (connClose ++ tl) =
      connOpen ++ (Join '\n' ([] :: [] :: ls) ++ ('\n' :: (connClose ++ tl))) := by
    rw [hshape]
    simp
  have hsplit : Split '\n' (Join '\n' ([] :: [] :: ls)) = [] :: [] :: ls := by
    apply Split_Join _ _ (by simp)
    intro l hl
    rcases List.mem_cons.mp hl with h | h
    · subst h
      simp
    · rcases List.mem_cons.mp h with h | h
      · subst h
        simp
      · exact hn l h
  simp only [ReadConfig, hopen, hclose, hlen, h13]
  rw [hfile, slice_mid]
  simp only [hsplit, List.foldl_cons, readLine_nil]

theorem ResetConfig_shape (old : File) :
    ResetConfig old = some (unlines [connOpen, []] ++ (connClose ++ "\n".toList)) := by
  have h : ResetConfig old = some "[connections]\n\n[/connections]\n".toList := rfl
  rw [h]
  decide

theorem configLine_no_newline (Strdbms : Int → Str) (i : Instance)
    (hs : cleanValue (Strdbms i.DBMS) = true) (hd : cleanValue i.DSN = true)
    (hn : cleanValue i.ConnName = true) : '\n' ∉ configLine Strdbms i := by
  have h1 := cleanValue_no_newline _ hs
  have h2 := cleanValue_no_newline _ hd
  have h3 := cleanValue_no_newline _ hn
  simp [configLine, h1, h2, h3]

/-- C1, as stated, fails: a DSN with a `=` in it is written by `WriteConfig`
and read back by `ReadConfig` as the empty DSN. -/
theorem round_trip_loses_dsn :
    sampleDbmsstr (sampleStrdbms 0) = 0 ∧
    writeAll sampleStrdbms [mkInstance 0 "h/db?tls=true".toList "prod".toList]
        (ResetConfig none) =
      some (some ("[connections]\n\ndbms=mysql dsn=h/db?tls=true conn-name=prod\n".toList ++
        "[/connections]\n".toList)) ∧
    ReadConfig sampleDbmsstr
        (some ("[connections]\n\ndbms=mysql dsn=h/db?tls=true conn-name=prod\n".toList ++
          "[/connections]\n".toList)) [] =
      some ([mkInstance 0 [] "prod".toList], false) := by
  refine ⟨?_, ?_, ?_⟩ <;> decide

/-- C1, amended: from the reset config file, `WriteConfig` once per instance
and then `ReadConfig` on an empty slice return, in the order written, the
connection name, kind and DSN of every instance, when for each instance the
name of the kind, the DSN and the connection name have no white space and no
`=`, the written line does not contain the closing marker, and `Dbmsstr`
maps the name of the kind back to the kind. -/
theorem write_then_read_round_trip (Strdbms : Int → Str) (Dbmsstr : Str → Int)
    (old : File) (insts : List Instance)
    (hinv : ∀ i ∈ insts, Dbmsstr (Strdbms i.DBMS) = i.DBMS)
    (hclean : ∀ i ∈ insts, cleanValue (Strdbms i.DBMS) = true ∧ cleanValue i.DSN = true ∧
      cleanValue i.ConnName = true)
    (hmark : ∀ i ∈ insts, Index (configLine Strdbms i) connClose = -1) :
    ∃ file, writeAll Strdbms insts (ResetConfig old) = some file ∧
      ReadConfig Dbmsstr file [] =
        some (insts.map (fun i => mkInstance i.DBMS i.DSN i.ConnName), false) := by
  have hm : ∀ i ∈ insts, indexNat connClose (configLine Strdbms i) = none :=
    fun i hi => (Index_eq_neg_one _ _).mp (hmark i hi)
  have h0 : ∀ l ∈ [connOpen, ([] : Str)], indexNat connClose l = none := by decide
  have hw := writeAll_block Strdbms insts [connOpen, []] "\n".toList h0 hm
  refine ⟨_, by rw [ResetConfig_shape]; exact hw, ?_⟩
  have hr := ReadConfig_block Dbmsstr (insts.map (configLine Strdbms)) "\n".toList []
    (by
      intro l hl
      obtain ⟨i, hi, rfl⟩ := List.mem_map.mp hl
      exact hm i hi)
    (by
      intro l hl
      obtain ⟨i, hi, rfl⟩ := List.mem_map.mp hl
      obtain ⟨hs, hd, hn⟩ := hclean i hi
      exact configLine_no_newline Strdbms i hs hd hn)
  have he : [connOpen, ([] : Str)] ++ insts.map (configLine Strdbms) =
      connOpen :: [] :: insts.map (configLine Strdbms) := rfl
  rw [he, hr, foldl_readLine_configLines Strdbms Dbmsstr insts [] hclean]
  simp only [List.nil_append, Option.some.injEq, Prod.mk.injEq, and_true]
  apply List.map_congr_left
  intro i hi
  rw [hinv i hi]

/-- C1 amended, at a concrete instance: kind mysql, DSN `u:p@tcp(h:3306)/db`,
name `prod`. -/
theorem write_then_read_round_trip_witness :
    ∃ file, writeAll sampleStrdbms [mkInstance 0 "u:p@tcp(h:3306)/db".toList "prod".toList]
        (ResetConfig none) = some file ∧
      ReadConfig sampleDbmsstr file [] =
        some ([mkInstance 0 "u:p@tcp(h:3306)/db".toList "prod".toList], false) :=
  write_then_read_round_trip sampleStrdbms sampleDbmsstr none
    [mkInstance 0 "u:p@tcp(h:3306)/db".toList "prod".toList]
    (by decide) (by decide) (by decide)

/-! ## Repeated `SyncConfig` -/

theorem keptLines_append : ∀ (xs ys before : List Str),
    keptLines before (xs ++ ys) = keptLines before xs ++ keptLines (before ++ xs) ys
  | [], ys, before => by simp [keptLines]
  | x :: xs, ys, before => by
    have ih := keptLines_append xs ys (before ++ [x])
    have he : before ++ [x] ++ xs = before ++ x :: xs := by simp
    rw [he] at ih
    simp only [List.cons_append, keptLines]
    split_ifs <;> simp [ih]

theorem keptLines_congr : ∀ (ls b1 b2 : List Str), (∀ x, x ∈ b1 ↔ x ∈ b2) →
    keptLines b1 ls = keptLines b2 ls
  | [], _, _, _ => by simp [keptLines]
  | l :: rest, b1, b2, h => by
    have h2 : ∀ x, x ∈ b1 ++ [l] ↔ x ∈ b2 ++ [l] := by
      intro x
      simp only [List.mem_append, h x]
    have ih := keptLines_congr rest (b1 ++ [l]) (b2 ++ [l]) h2
    simp only [keptLines, ih, h l]

theorem keptLines_idem : ∀ (ls before : List Str),
    keptLines before (keptLines before ls) = keptLines before ls
  | [], _ => by simp [keptLines]
  | l :: rest, before => by
    have ih := keptLines_idem rest (before ++ [l])
    by_cases hc : l = [] ∨ l ∉ before
    · simp only [keptLines, hc, if_true, ih]
    · have hb : l ∈ before := by
        by_contra hb
        exact hc (Or.inr hb)
      have hsame : ∀ x, x ∈ before ↔ x ∈ before ++ [l] := by
        intro x
        simp only [List.mem_append, List.mem_singleton]
        constructor
        · exact Or.inl
        · rintro (h | h)
          · exact h
          · exact h ▸ hb
      simp only [keptLines, hc, if_false]
      rw [keptLines_congr _ before (before ++ [l]) hsame, ih]

theorem keptLines_mem_iff (ls : List Str) (x : Str) : x ∈ keptLines [] ls ↔ x ∈ ls := by
  constructor
  · exact fun h => (keptLines_sublist ls []).subset h
  · intro h
    rcases keptLines_mem ls [] x h with h1 | h1
    · exact h1
    · simp at h1

theorem keptLines_of_seen : ∀ (ls before : List Str), (∀ x ∈ ls, x ≠ [] ∧ x ∈ before) →
    keptLines before ls = []
  | [], _, _ => by simp [keptLines]
  | l :: rest, before, h => by
    obtain ⟨h1, h2⟩ := h l (by simp)
    have ih := keptLines_of_seen rest (before ++ [l])
      (fun x hx => ⟨(h x (by simp [hx])).1, List.mem_append_left _ (h x (by simp [hx])).2⟩)
    simp [keptLines, h1, h2, ih]

theorem Split_unlines : ∀ (ls : List Str) (rest : Str), (∀ l ∈ ls, '\n' ∉ l) →
    Split '\n' (unlines ls ++ rest) = ls ++ Split '\n' rest
  | [], rest, _ => by simp [unlines]
  | l :: ls, rest, h => by
    have ih := Split_unlines ls rest (fun x hx => h x (by simp [hx]))
    simp only [unlines, List.append_assoc, List.cons_append]
    rw [Split_append_sep '\n' l _ (h l (by simp)), ih]

theorem Join_append : ∀ (xs ys : List Str), ys ≠ [] →
    Join '\n' (xs ++ ys) = unlines xs ++ Join '\n' ys
  | [], ys, _ => by simp [unlines]
  | x :: xs, ys, h => by
    have ih := Join_append xs ys h
    have hne : xs ++ ys ≠ [] := by simp [h]
    rw [List.cons_append, Join_cons _ _ _ hne, ih]
    simp [unlines]

theorem Split_append_of_no_sep (sep : Char) : ∀ (p t : Str), sep ∉ p →
    Split sep (p ++ t) = (p ++ (Split sep t).headD []) :: (Split sep t).tail
  | [], t, _ => by
    cases hs : Split sep t with
    | nil => exact absurd hs (Split_ne_nil sep t)
    | cons a al => simp [hs]
  | c :: cs, t, h => by
    have hc : c ≠ sep := fun e => h (by simp [e])
    have ih := Split_append_of_no_sep sep cs t (fun e => h (by simp [e]))
    rw [List.cons_append, Split_cons_of_ne sep c _ hc, ih]
    simp

theorem cleanContent_eq (content : Str) :
    cleanContent content = Join '\n' (keptLines [] (Split '\n' content)) := by
  have hnl : ∀ l ∈ Split '\n' content, l ≠ "\n".toList := by
    intro l hl he
    have := Split_no_sep '\n' content l hl
    rw [he] at this
    exact this (by decide)
  have hfold := cleanStep_foldl (Split '\n' content) [] [] [] (by simp) hnl
  simp only [cleanContent, hfold, List.nil_append]

theorem startsWith_of_append (x : Str) : ∀ (l sub : Str), sub.length ≤ l.length →
    startsWith (l ++ x) sub = true → startsWith l sub = true
  | _, [], _, _ => by simp [startsWith]
  | [], _ :: _, hl, _ => by simp at hl
  | c :: cs, d :: ds, hl, h => by
    simp only [List.cons_append, startsWith, Bool.and_eq_true, beq_iff_eq] at h
    simp only [startsWith, Bool.and_eq_true, beq_iff_eq]
    simp only [List.length_cons] at hl
    exact ⟨h.1, startsWith_of_append x cs ds (by omega) h.2⟩

theorem indexNat_append_of_some (sub x : Str) : ∀ (l : Str) (j : Nat),
    indexNat sub l = some j → indexNat sub (l ++ x) = some j
  | [], j, h => by
    simp only [indexNat] at h
    split_ifs at h with h1
    have := startsWith_append x [] sub h1
    rw [indexNat_of_startsWith _ _ this]
    exact h
  | c :: cs, j, h => by
    have hlen := indexNat_add_le sub (c :: cs) j h
    simp only [indexNat] at h
    split_ifs at h with h1
    · have := startsWith_append x (c :: cs) sub h1
      rw [indexNat_of_startsWith _ _ this]
      exact h
    · cases hq : indexNat sub cs with
      | none => simp [hq] at h
      | some j1 =>
        have ih := indexNat_append_of_some sub x cs j1 hq
        have h2 : startsWith (c :: (cs ++ x)) sub = false := by
          by_contra hc
          apply h1
          apply startsWith_of_append x (c :: cs) sub (by omega)
          simpa using hc
        simp only [hq, Option.map_some'] at h
        have h3 : indexNat sub (c :: (cs ++ x)) = (indexNat sub (cs ++ x)).map (· + 1) := by
          simp only [indexNat, h2, Bool.false_eq_true, if_false]
        rw [List.cons_append, h3, ih]
        exact h

/-- When a line of a block holds the text, the search finds it inside the
block. -/
theorem indexNat_unlines_inside (sub : Str) (hsub : sub ≠ []) (hsep : '\n' ∉ sub) :
    ∀ (ls : List Str) (rest : Str), (∃ l ∈ ls, indexNat sub l ≠ none) →
      ∃ n, indexNat sub (unlines ls ++ rest) = some n ∧
        n + sub.length ≤ (unlines ls).length
  | [], _, h => by
    obtain ⟨l, hl, _⟩ := h
    simp at hl
  | l :: ls, rest, h => by
    cases hq : indexNat sub l with
    | some j =>
      refine ⟨j, ?_, ?_⟩
      · simp only [unlines, List.append_assoc]
        exact indexNat_append_of_some sub _ l j hq
      · have := indexNat_add_le sub l j hq
        simp only [unlines, List.length_append, List.length_cons]
        omega
    | none =>
      have h2 : ∃ m ∈ ls, indexNat sub m ≠ none := by
        obtain ⟨m, hm, hne⟩ := h
        rcases List.mem_cons.mp hm with h3 | h3
        · subst h3
          exact absurd hq hne
        · exact ⟨m, h3, hne⟩
      obtain ⟨n, hn, hle⟩ := indexNat_unlines_inside sub hsub hsep ls rest h2
      refine ⟨n + (l.length + 1), ?_, ?_⟩
      · simp only [unlines, List.append_assoc, List.cons_append]
        rw [indexNat_skip_line '\n' sub hsub hsep l _ hq, hn]
        rfl
      · simp only [unlines, List.length_append, List.length_cons]
        omega

/-- A content whose first closing marker starts a line is a block of
marker-free lines, the marker and a tail. -/
theorem markerStartsLine_block (content : Str) (h : markerStartsLine content) :
    ∃ (bl : List Str) (tl : Str), content = unlines bl ++ (connClose ++ tl) ∧
      (∀ l ∈ bl, indexNat connClose l = none) ∧ (∀ l ∈ bl, '\n' ∉ l) := by
  obtain ⟨before, after, hc, hi, hb⟩ := h
  have hi2 : indexNat connClose content = some before.length :=
    (Index_eq_natCast _ _ _).mp hi
  have key : ∀ bl : List Str, unlines bl = before → (∀ l ∈ bl, '\n' ∉ l) →
      ∃ (bl : List Str) (tl : Str), content = unlines bl ++ (connClose ++ tl) ∧
        (∀ l ∈ bl, indexNat connClose l = none) ∧ (∀ l ∈ bl, '\n' ∉ l) := by
    intro bl hbl hnl
    refine ⟨bl, after, by rw [hc, hbl, List.append_assoc], ?_, hnl⟩
    intro l hl
    by_contra hne
    obtain ⟨n, hn, hle⟩ := indexNat_unlines_inside connClose connClose_ne_nil
      connClose_no_newline bl (connClose ++ after) ⟨l, hl, hne⟩
    rw [hbl, ← List.append_assoc, ← hc, hi2] at hn
    have h14 : connClose.length = 14 := by decide
    simp only [Option.some.injEq] at hn
    rw [hbl] at hle
    omega
  rcases hb with hb | hb
  · exact key [] (by simp [unlines, hb]) (by simp)
  · obtain ⟨b0, hb0⟩ := List.getLast?_eq_some_iff.mp hb
    refine key (Split '\n' b0) ?_ (Split_no_sep '\n' b0)
    rw [unlines_eq_Join _ (Split_ne_nil _ _), Join_Split, hb0]

theorem keptLines_first_pass (X : List Str) (m1 : Str) (al : List Str) (hm1 : m1 ∉ X) :
    keptLines [] (X ++ m1 :: al) = keptLines [] X ++ m1 :: keptLines (X ++ [m1]) al := by
  rw [keptLines_append]
  simp [keptLines, hm1]

theorem keptLines_second_pass (X Ls : List Str) (m1 : Str) (al : List Str)
    (hLs : ∀ l ∈ Ls, l ≠ [] ∧ l ∈ X) (hm1 : m1 ∉ X) :
    keptLines [] ((keptLines [] X ++ Ls) ++ m1 :: keptLines (X ++ [m1]) al) =
      keptLines [] X ++ m1 :: keptLines (X ++ [m1]) al := by
  have h1 : keptLines [] (keptLines [] X ++ Ls) = keptLines [] X := by
    rw [keptLines_append, keptLines_idem, List.nil_append,
      keptLines_of_seen Ls _ (fun l hl => ⟨(hLs l hl).1, (keptLines_mem_iff X l).mpr (hLs l hl).2⟩)]
    simp
  have hm2 : m1 ∉ keptLines [] X ++ Ls := by
    intro h
    rcases List.mem_append.mp h with h | h
    · exact hm1 ((keptLines_mem_iff X m1).mp h)
    · exact hm1 (hLs m1 h).2
  have hset : ∀ x, x ∈ (keptLines [] X ++ Ls) ++ [m1] ↔ x ∈ X ++ [m1] := by
    intro x
    simp only [List.mem_append, keptLines_mem_iff, List.mem_singleton]
    constructor
    · rintro ((h | h) | h)
      · exact Or.inl h
      · exact Or.inl (hLs x h).2
      · exact Or.inr h
    · rintro (h | h)
      · exact Or.inl (Or.inl h)
      · exact Or.inr h
  rw [keptLines_append, h1, List.nil_append]
  congr 1
  have h2 : keptLines (keptLines [] X ++ Ls) (m1 :: keptLines (X ++ [m1]) al) =
      m1 :: keptLines ((keptLines [] X ++ Ls) ++ [m1]) (keptLines (X ++ [m1]) al) := by
    simp [keptLines, hm2]
  rw [h2, keptLines_congr _ _ _ hset, keptLines_idem]

theorem syncFile_block (Strdbms : Int → Str) (insts : List Instance) (bl : List Str)
    (tl : Str) (hm : ∀ l ∈ bl, indexNat connClose l = none) (hn : ∀ l ∈ bl, '\n' ∉ l)
    (him : ∀ i ∈ insts, indexNat connClose (configLine Strdbms i) = none)
    (hin : ∀ i ∈ insts, '\n' ∉ configLine Strdbms i) :
    syncFile Strdbms insts (some (unlines bl ++ (connClose ++ tl))) =
      some (some (Join '\n' (keptLines []
        ((bl ++ insts.map (configLine Strdbms)) ++ Split '\n' (connClose ++ tl))))) := by
  have hn2 : ∀ l ∈ bl ++ insts.map (configLine Strdbms), '\n' ∉ l := by
    intro l hl
    rcases List.mem_append.mp hl with h | h
    · exact hn l h
    · obtain ⟨i, hi, rfl⟩ := List.mem_map.mp h
      exact hin i hi
  simp only [syncFile, writeAll_block Strdbms insts bl tl hm him, CleanConfig,
    cleanContent_eq, Split_unlines _ _ hn2]

theorem SyncConfig_eq (Strdbms : Int → Str) (Dbmsstr : Str → Int) (insts : List Instance)
    (file : File) :
    SyncConfig Strdbms Dbmsstr insts file =
      match syncFile Strdbms insts file with
      | none => none
      | some file2 =>
        match ReadConfig Dbmsstr file2 [] with
        | none => none
        | some (out, _) => some (file2, out) := by
  unfold SyncConfig syncFile
  cases writeAll Strdbms insts file with
  | none => rfl
  | some file1 => rfl

theorem configLine_ne_nil (Strdbms : Int → Str) (i : Instance) : configLine Strdbms i ≠ [] := by
  simp [configLine]

/-- The file after one `SyncConfig` is a fixed point of the write loop and
`CleanConfig`, and holds each written line once. -/
theorem syncFile_idempotent (Strdbms : Int → Str) (insts : List Instance) (content : Str)
    (hstart : markerStartsLine content)
    (hlines : ∀ i ∈ insts, '\n' ∉ configLine Strdbms i ∧
      Index (configLine Strdbms i) connClose = -1) :
    ∃ c1, syncFile Strdbms insts (some content) = some (some c1) ∧
      syncFile Strdbms insts (some c1) = some (some c1) ∧
      (∀ i ∈ insts, (Split '\n' c1).count (configLine Strdbms i) = 1) ∧
      (∀ l : Str, l ≠ [] → (Split '\n' c1).count l ≤ 1) := by
  obtain ⟨bl, tl, hc, hm, hn⟩ := markerStartsLine_block content hstart
  have him : ∀ i ∈ insts, indexNat connClose (configLine Strdbms i) = none :=
    fun i hi => (Index_eq_neg_one _ _).mp (hlines i hi).2
  have hin : ∀ i ∈ insts, '\n' ∉ configLine Strdbms i := fun i hi => (hlines i hi).1
  -- the lines before the marker after the write loop
  have hXm : ∀ l ∈ bl ++ insts.map (configLine Strdbms), indexNat connClose l = none := by
    intro l hl
    rcases List.mem_append.mp hl with h | h
    · exact hm l h
    · obtain ⟨i, hi, rfl⟩ := List.mem_map.mp h
      exact him i hi
  have hXn : ∀ l ∈ bl ++ insts.map (configLine Strdbms), '\n' ∉ l := by
    intro l hl
    rcases List.mem_append.mp hl with h | h
    · exact hn l h
    · obtain ⟨i, hi, rfl⟩ := List.mem_map.mp h
      exact hin i hi
  -- the line of the marker and the lines after it
  have hsp := Split_append_of_no_sep '\n' connClose tl connClose_no_newline
  have hm1 : connClose ++ (Split '\n' tl).headD [] ∉ bl ++ insts.map (configLine Strdbms) := by
    intro h
    have h0 := hXm _ h
    rw [indexNat_of_startsWith _ _ (startsWith_self_append connClose _)] at h0
    cases h0
  have hLs : ∀ l ∈ insts.map (configLine Strdbms),
      l ≠ [] ∧ l ∈ bl ++ insts.map (configLine Strdbms) := by
    intro l hl
    refine ⟨?_, List.mem_append_right _ hl⟩
    obtain ⟨i, _, rfl⟩ := List.mem_map.mp hl
    exact configLine_ne_nil Strdbms i
  have hfirst := syncFile_block Strdbms insts bl tl hm hn him hin
  rw [hsp, keptLines_first_pass _ _ _ hm1] at hfirst
  -- the lines of the file after the first run
  have hKn : ∀ l ∈ keptLines [] (bl ++ insts.map (configLine Strdbms)) ++
      (connClose ++ (Split '\n' tl).headD []) ::
        keptLines (bl ++ insts.map (configLine Strdbms) ++
          [connClose ++ (Split '\n' tl).headD []]) (Split '\n' tl).tail, '\n' ∉ l := by
    intro l hl
    rcases List.mem_append.mp hl with h | h
    · exact hXn l ((keptLines_sublist _ _).subset h)
    · have hmem : l ∈ Split '\n' (connClose ++ tl) := by
        rw [hsp]
        rcases List.mem_cons.mp h with h1 | h1
        · exact h1 ▸ List.mem_cons_self _ _
        · exact List.mem_cons_of_mem _ ((keptLines_sublist _ _).subset h1)
      exact Split_no_sep '\n' _ l hmem
  have hsplit1 := Split_Join '\n' _ (by simp) hKn
  refine ⟨_, by rw [hc]; exact hfirst, ?_, ?_, ?_⟩
  · -- the second run
    obtain ⟨tl2, htl2⟩ : ∃ tl2, Join '\n' ((connClose ++ (Split '\n' tl).headD []) ::
        keptLines (bl ++ insts.map (configLine Strdbms) ++
          [connClose ++ (Split '\n' tl).headD []]) (Split '\n' tl).tail) =
        connClose ++ tl2 := by
      cases keptLines (bl ++ insts.map (configLine Strdbms) ++
          [connClose ++ (Split '\n' tl).headD []]) (Split '\n' tl).tail with
      | nil => exact ⟨(Split '\n' tl).headD [], by simp only [Join]⟩
      | cons a al =>
        exact ⟨(Split '\n' tl).headD [] ++ '\n' :: Join '\n' (a :: al), by
          rw [Join_cons _ _ _ (by simp), List.append_assoc]⟩
    have hK1m : ∀ l ∈ keptLines [] (bl ++ insts.map (configLine Strdbms)),
        indexNat connClose l = none :=
      fun l hl => hXm l ((keptLines_sublist _ _).subset hl)
    have hK1n : ∀ l ∈ keptLines [] (bl ++ insts.map (configLine Strdbms)), '\n' ∉ l :=
      fun l hl => hXn l ((keptLines_sublist _ _).subset hl)
    have hsecond := syncFile_block Strdbms insts _ tl2 hK1m hK1n him hin
    have hsplit2 : Split '\n' (connClose ++ tl2) =
        (connClose ++ (Split '\n' tl).headD []) ::
          keptLines (bl ++ insts.map (configLine Strdbms) ++
            [connClose ++ (Split '\n' tl).headD []]) (Split '\n' tl).tail := by
      rw [← htl2]
      apply Split_Join '\n' _ (by simp)
      intro l hl
      exact hKn l (List.mem_append_right _ hl)
    rw [hsplit2, keptLines_second_pass _ _ _ _ hLs hm1] at hsecond
    rw [Join_append _ _ (by simp), htl2]
    rw [Join_append _ _ (by simp), htl2] at hsecond
    exact hsecond
  · intro i hi
    rw [hsplit1, ← keptLines_first_pass _ _ _ hm1]
    have hle := (keptLines_count
      ((bl ++ insts.map (configLine Strdbms)) ++
        (connClose ++ (Split '\n' tl).headD []) :: (Split '\n' tl).tail) []
      (configLine Strdbms i) (configLine_ne_nil Strdbms i)).1
    have hmem : configLine Strdbms i ∈ keptLines []
        ((bl ++ insts.map (configLine Strdbms)) ++
          (connClose ++ (Split '\n' tl).headD []) :: (Split '\n' tl).tail) := by
      rw [keptLines_mem_iff]
      exact List.mem_append_left _ (List.mem_append_right _ (List.mem_map_of_mem _ hi))
    have hpos := List.count_pos_iff.mpr hmem
    omega
  · intro l hl
    rw [hsplit1, ← keptLines_first_pass _ _ _ hm1]
    exact (keptLines_count _ [] l hl).1

/-- C4, as stated, fails: in the content `[connections][/connections]` the
closing marker does not start a line, and a second `SyncConfig` with the same
instance list adds the line of the instance once more. -/
theorem SyncConfig_twice_differs :
    Index "[connections][/connections]\n".toList connClose = 13 ∧
    SyncConfig sampleStrdbms sampleDbmsstr [mkInstance 0 "a".toList "prod".toList]
        (some "[connections][/connections]\n".toList) =
      some (some "[connections]dbms=mysql dsn=a conn-name=prod\n[/connections]\n".toList,
            [mkInstance 0 "a".toList "prod".toList]) ∧
    SyncConfig sampleStrdbms sampleDbmsstr [mkInstance 0 "a".toList "prod".toList]
        (some "[connections]dbms=mysql dsn=a conn-name=prod\n[/connections]\n".toList) =
      some (some ("[connections]dbms=mysql dsn=a conn-name=prod\n".toList ++
                  "dbms=mysql dsn=a conn-name=prod\n[/connections]\n".toList),
            [mkInstance 0 "a".toList "prod".toList, mkInstance 0 "a".toList "prod".toList]) := by
  refine ⟨?_, ?_, ?_⟩ <;> decide

/-- C4, amended: when the first closing marker of the initial content starts
a line and no line written for an instance contains a newline or the closing
marker, the write loop and `CleanConfig` of `SyncConfig` leave a file that a
second `SyncConfig` with the same instance list leaves byte for byte as it
is; that file holds the line of every instance exactly once and no non-empty
line twice; and when the first `SyncConfig` returns (its `ReadConfig` does not
panic), the second returns the same file and the same list. -/
theorem SyncConfig_twice_same (Strdbms : Int → Str) (Dbmsstr : Str → Int)
    (insts : List Instance) (content : Str)
    (hstart : markerStartsLine content)
    (hlines : ∀ i ∈ insts, '\n' ∉ configLine Strdbms i ∧
      Index (configLine Strdbms i) connClose = -1) :
    ∃ c1, syncFile Strdbms insts (some content) = some (some c1) ∧
      syncFile Strdbms insts (some c1) = some (some c1) ∧
      (∀ i ∈ insts, (Split '\n' c1).count (configLine Strdbms i) = 1) ∧
      (∀ l : Str, l ≠ [] → (Split '\n' c1).count l ≤ 1) ∧
      (SyncConfig Strdbms Dbmsstr insts (some content) = none ↔
        ReadConfig Dbmsstr (some c1) [] = none) ∧
      (∀ r, SyncConfig Strdbms Dbmsstr insts (some content) = some r →
        r.1 = some c1 ∧ SyncConfig Strdbms Dbmsstr insts (some c1) = some r) := by
  obtain ⟨c1, h1, h2, h3, h4⟩ := syncFile_idempotent Strdbms insts content hstart hlines
  refine ⟨c1, h1, h2, h3, h4, ?_, ?_⟩
  · rw [SyncConfig_eq, h1]
    dsimp only
    cases hr : ReadConfig Dbmsstr (some c1) [] with
    | none => simp
    | some p => simp
  · intro r hr
    rw [SyncConfig_eq, h1] at hr
    rw [SyncConfig_eq, h2]
    dsimp only at hr ⊢
    cases hq : ReadConfig Dbmsstr (some c1) [] with
    | none => simp [hq] at hr
    | some p =>
      simp only [hq, Option.some.injEq] at hr
      subst hr
      exact ⟨rfl, rfl⟩

/-- C4 amended, at a concrete run: one instance and the reset config file. -/
theorem SyncConfig_twice_same_witness :
    ∃ c1, syncFile sampleStrdbms [mkInstance 0 "a".toList "prod".toList]
        (some "[connections]\n\n[/connections]\n".toList) = some (some c1) ∧
      syncFile sampleStrdbms [mkInstance 0 "a".toList "prod".toList] (some c1) =
        some (some c1) :=
  (SyncConfig_twice_same sampleStrdbms sampleDbmsstr
      [mkInstance 0 "a".toList "prod".toList] "[connections]\n\n[/connections]\n".toList
      ⟨"[connections]\n\n".toList, "\n".toList, by decide, by decide, Or.inr (by decide)⟩
      (by decide)).imp (fun _ h => ⟨h.1, h.2.1⟩)

/-! ## The online list -/

theorem mapGet_mapSet_self : ∀ (m : List (Str × Instance)) (k : Str) (v : Instance),
    mapGet (mapSet m k v) k = some v
  | [], k, v => by simp [mapSet, mapGet]
  | (k1, v1) :: rest, k, v => by
    by_cases h : k1 = k
    · simp [mapSet, mapGet, h]
    · simp [mapSet, mapGet, h, mapGet_mapSet_self rest k v]

theorem mapGet_mapSet_ne : ∀ (m : List (Str × Instance)) (k k2 : Str) (v : Instance),
    k2 ≠ k → mapGet (mapSet m k v) k2 = mapGet m k2
  | [], k, k2, v, h => by simp [mapSet, mapGet, Ne.symm h]
  | (k1, v1) :: rest, k, k2, v, h => by
    by_cases h1 : k1 = k
    · subst h1
      simp [mapSet, mapGet, Ne.symm h]
    · simp [mapSet, mapGet, h1, mapGet_mapSet_ne rest k k2 v h]

theorem mapGet_mem : ∀ (m : List (Str × Instance)) (k : Str) (v : Instance),
    mapGet m k = some v → (k, v) ∈ m
  | [], _, _, h => by simp [mapGet] at h
  | (k1, v1) :: rest, k, v, h => by
    by_cases h1 : k1 = k
    · simp only [mapGet, h1, if_true, Option.some.injEq] at h
      simp [h1, h]
    · simp only [mapGet, h1, if_false] at h
      exact List.mem_cons_of_mem _ (mapGet_mem rest k v h)

theorem mapGet_of_mem : ∀ (m : List (Str × Instance)) (k : Str) (v : Instance),
    (k, v) ∈ m → ∃ v1, mapGet m k = some v1
  | [], _, _, h => by simp at h
  | (k1, v1) :: rest, k, v, h => by
    by_cases h1 : k1 = k
    · exact ⟨v1, by simp [mapGet, h1]⟩
    · rcases List.mem_cons.mp h with h2 | h2
      · exact absurd (congrArg Prod.fst h2).symm h1
      · obtain ⟨v2, hv2⟩ := mapGet_of_mem rest k v h2
        exact ⟨v2, by simp [mapGet, h1, hv2]⟩

theorem mem_mapSet : ∀ (m : List (Str × Instance)) (k : Str) (v : Instance)
    (kv : Str × Instance), kv ∈ mapSet m k v → kv ∈ m ∨ kv = (k, v)
  | [], k, v, kv, h => by
    simp only [mapSet, List.mem_singleton] at h
    exact Or.inr h
  | (k1, v1) :: rest, k, v, kv, h => by
    by_cases h1 : k1 = k
    · simp only [mapSet, h1, if_true] at h
      rcases List.mem_cons.mp h with h2 | h2
      · exact Or.inr h2
      · exact Or.inl (List.mem_cons_of_mem _ h2)
    · simp only [mapSet, h1, if_false] at h
      rcases List.mem_cons.mp h with h2 | h2
      · exact Or.inl (h2 ▸ List.mem_cons_self _ _)
      · rcases mem_mapSet rest k v kv h2 with h3 | h3
        · exact Or.inl (List.mem_cons_of_mem _ h3)
        · exact Or.inr h3

/-- A name the Ctrl-D loop leaves in `ActiveConns` was there before or is the
connection name of a stored instance. -/
theorem reconnectAll_mem (env : Env) : ∀ (insts : List (Str × Instance)) (active : List Str)
    (n : Str), n ∈ reconnectAll env insts active →
      n ∈ active ∨ ∃ kv ∈ insts, kv.2.ConnName = n
  | [], active, n, h => by
    simp only [reconnectAll, List.foldl_nil] at h
    exact Or.inl h
  | kv :: rest, active, n, h => by
    simp only [reconnectAll, List.foldl_cons] at h
    have ih := reconnectAll_mem env rest _ n h
    rcases ih with h1 | ⟨kv2, hk, hn⟩
    · split_ifs at h1
      · rcases List.mem_append.mp h1 with h2 | h2
        · exact Or.inl h2
        · exact Or.inr ⟨kv, by simp, (List.mem_singleton.mp h2).symm⟩
      · exact Or.inl h1
      · exact Or.inl h1
    · exact Or.inr ⟨kv2, List.mem_cons_of_mem _ hk, hn⟩

/-- What an Enter submission that returns does to `Instances` and
`ActiveConns`: nothing when the kind, the DSN or the ping stops it; otherwise
it stores the instance with the handle of the connection attempt under the
submitted name, hands the map to `io.SyncConfig`, and appends the name when
the attempt has no error. -/
theorem onEnter_store (env : Env) (s s1 : UI) (h : onEnter env s = some s1) :
    ((env.Dbmsstr s.dbmsin = -1 ∨ s.dsnin = [] ∨ env.Ping (pendingInstance env s) = false) ∧
      s1.Instances = s.Instances ∧ s1.ActiveConns = s.ActiveConns) ∨
    (env.Dbmsstr s.dbmsin ≠ -1 ∧ s.dsnin ≠ [] ∧ env.Ping (pendingInstance env s) = true ∧
      (∃ f1, env.SyncConfig
        (mapSet s.Instances (pendingInstance env s).ConnName
          { pendingInstance env s with Driver := (env.Connect (pendingInstance env s)).1 })
        s.file = some (f1, s1.Instances)) ∧
      s1.ActiveConns =
        if (env.Connect (pendingInstance env s)).2 = true
        then s.ActiveConns ++ [(pendingInstance env s).ConnName] else s.ActiveConns) := by
  unfold onEnter at h
  dsimp only at h
  split_ifs at h with h1 h2 h3 h4 h5 <;> (try split at h)
  all_goals first
    | (simp only [reduceCtorEq] at h; done)
    | (simp only [Option.some.injEq] at h; subst h)
  all_goals unfold pendingInstance
  all_goals try (first | rw [if_pos ‹s.namein = []›] | rw [if_neg ‹¬ s.namein = []›])
  all_goals dsimp only
  all_goals first
    | exact Or.inl ⟨Or.inl ‹_›, rfl, rfl⟩
    | exact Or.inl ⟨Or.inr (Or.inl ‹_›), rfl, rfl⟩
    | exact Or.inl ⟨Or.inr (Or.inr (by simpa using ‹¬ _ = true›)), rfl, rfl⟩
    | skip

  all_goals refine Or.inr ⟨‹_›, ‹_›, ‹_›, ⟨_, ‹_›⟩, ?_⟩
  all_goals (split_ifs; rfl)

theorem mem_keys_mapSet : ∀ (m : List (Str × Instance)) (k : Str) (v : Instance) (k2 : Str),
    k2 ∈ (mapSet m k v).map Prod.fst → k2 ∈ m.map Prod.fst ∨ k2 = k
  | [], k, v, k2, h => by
    simp only [mapSet, List.map_cons, List.map_nil, List.mem_singleton] at h
    exact Or.inr h
  | (k1, v1) :: rest, k, v, k2, h => by
    by_cases h1 : k1 = k
    · simp only [mapSet, h1, if_true, List.map_cons, List.mem_cons] at h
      rcases h with h2 | h2
      · exact Or.inr h2
      · exact Or.inl (List.mem_cons_of_mem _ h2)
    · simp only [mapSet, h1, if_false, List.map_cons, List.mem_cons] at h
      rcases h with h2 | h2
      · exact Or.inl (h2 ▸ List.mem_cons_self _ _)
      · rcases mem_keys_mapSet rest k v k2 h2 with h3 | h3
        · exact Or.inl (List.mem_cons_of_mem _ h3)
        · exact Or.inr h3

theorem nodup_keys_mapSet : ∀ (m : List (Str × Instance)) (k : Str) (v : Instance),
    (m.map Prod.fst).Nodup → ((mapSet m k v).map Prod.fst).Nodup
  | [], k, v, _ => by simp [mapSet]
  | (k1, v1) :: rest, k, v, h => by
    simp only [List.map_cons, List.nodup_cons] at h
    by_cases h1 : k1 = k
    · simp only [mapSet, h1, if_true, List.map_cons, List.nodup_cons]
      exact ⟨h1 ▸ h.1, h.2⟩
    · simp only [mapSet, h1, if_false, List.map_cons, List.nodup_cons]
      refine ⟨?_, nodup_keys_mapSet rest k v h.2⟩
      intro hm
      rcases mem_keys_mapSet rest k v k1 hm with h2 | h2
      · exact h.1 h2
      · exact h1 h2

theorem mapGet_of_mem_nodup : ∀ (m : List (Str × Instance)) (k : Str) (v : Instance),
    (m.map Prod.fst).Nodup → (k, v) ∈ m → mapGet m k = some v
  | [], _, _, _, h => by simp at h
  | (k1, v1) :: rest, k, v, hn, h => by
    simp only [List.map_cons, List.nodup_cons] at hn
    rcases List.mem_cons.mp h with h1 | h1
    · simp only [Prod.mk.injEq] at h1
      simp [mapGet, h1.1, h1.2]
    · have hne : k1 ≠ k := by
        intro he
        apply hn.1
        rw [he]
        exact List.mem_map_of_mem Prod.fst h1
      simp only [mapGet, hne, if_false]
      exact mapGet_of_mem_nodup rest k v hn.2 h1

/-- The Ctrl-D loop appends the connection names of the stored instances
that have a nil `Driver` and a connection attempt without error. -/
theorem reconnectAll_eq (env : Env) : ∀ (insts : List (Str × Instance)) (active : List Str),
    reconnectAll env insts active =
      active ++ (insts.filter
        (fun kv => decide (kv.2.Driver = none) && (env.Connect kv.2).2)).map
        (fun kv => kv.2.ConnName)
  | [], active => by simp [reconnectAll]
  | kv :: rest, active => by
    have ih := reconnectAll_eq env rest
    simp only [reconnectAll] at ih
    simp only [reconnectAll, List.foldl_cons, List.filter_cons]
    by_cases h1 : kv.2.Driver = none
    · by_cases h2 : (env.Connect kv.2).2 = true
      · simp [h1, h2, ih]
      · simp [h1, h2, ih]
    · simp [h1, ih]

/-- What one key event that returns does to `Instances` and `ActiveConns`,
when `io.SyncConfig` leaves the map as it is: nothing; or, for an accepted
Enter submission, the store and the append of the Enter branch; or, for a
Ctrl-D that is not dropped, the appends of the reconnect loop. -/
theorem handleEvent_cases (env : Env) (e : KeyEvent) (s s1 : UI)
    (hsync : ∀ m f f1 m1, env.SyncConfig m f = some (f1, m1) → m1 = m)
    (h : handleEvent env e s = some s1) :
    (accepted env e s = false ∧ (e.key = Key.CtrlD → dropped env e.now s = true) ∧
      s1.Instances = s.Instances ∧ s1.ActiveConns = s.ActiveConns) ∨
    (accepted env e s = true ∧
      s1.Instances = mapSet s.Instances (submittedName e)
        { enterInstance env e with Driver := (e.Connect (enterInstance env e)).1 } ∧
      s1.ActiveConns =
        if (e.Connect (enterInstance env e)).2 = true
        then s.ActiveConns ++ [submittedName e] else s.ActiveConns) ∨
    (e.key = Key.CtrlD ∧ dropped env e.now s = false ∧ s1.Instances = s.Instances ∧
      s1.ActiveConns =
        reconnectAll { env with Ping := e.Ping, Connect := e.Connect } s.Instances
          s.ActiveConns) := by
  unfold handleEvent at h
  have hdd : dropped { env with Ping := e.Ping, Connect := e.Connect } e.now
      { s with dbmsin := e.dbms, dsnin := e.dsn, namein := e.name } =
      dropped env e.now s := rfl
  cases hd : dropped env e.now s with
  | true =>
    rw [← hdd] at hd
    simp only [keyninreader, hd, if_true, Option.some.injEq] at h
    subst h
    rw [hdd] at hd
    exact Or.inl ⟨by simp [accepted, hd], fun _ => rfl, rfl, rfl⟩
  | false =>
    rw [← hdd] at hd
    rw [keyninreader_processed _ _ _ _ hd] at h
    rw [hdd] at hd
    split_ifs at h with h1 h2 h3 h4 h5 h6
    · rcases onEnter_store _ _ _ h with ⟨hg, hi, ha⟩ | ⟨g1, g2, g3, ⟨f1, hs⟩, ha⟩
      · refine Or.inl ⟨?_, fun hk => ?_, hi, ha⟩
        · rcases hg with hg | hg | hg
          · have hg1 : env.Dbmsstr e.dbms = -1 := hg
            simp [accepted, hg1]
          · have hg1 : e.dsn = [] := hg
            simp [accepted, hg1]
          · have hg1 : e.Ping (enterInstance env e) = false := hg
            simp [accepted, hg1]
        · rw [h1] at hk
          cases hk
      · have g1a : env.Dbmsstr e.dbms ≠ -1 := g1
        have g2a : e.dsn ≠ [] := g2
        have g3a : e.Ping (enterInstance env e) = true := g3
        refine Or.inr (Or.inl ⟨by simp [accepted, h1, hd, g1a, g2a, g3a], ?_, ha⟩)
        exact hsync _ _ _ _ hs
    · unfold onCtrlD at h
      split at h
      · simp only [reduceCtorEq] at h
      · rename_i file1 insts1 heq
        have hm := hsync _ _ _ _ heq
        simp only [Option.some.injEq] at h
        subst h
        exact Or.inr (Or.inr ⟨h2, rfl, hm, by rw [hm]⟩)
    all_goals
      (simp only [Option.some.injEq] at h
       subst h
       exact Or.inl ⟨by simp [accepted, h1], fun hk => absurd hk h2, rfl, rfl⟩)

/-- One key event keeps the map well formed (distinct keys, every instance
stored under its connection name) and every name of `ActiveConns` a key. -/
theorem handleEvent_keys (env : Env) (e : KeyEvent) (s s1 : UI)
    (hsync : ∀ m f f1 m1, env.SyncConfig m f = some (f1, m1) → m1 = m)
    (h : handleEvent env e s = some s1)
    (hk : ∀ kv ∈ s.Instances, kv.2.ConnName = kv.1)
    (hn : (s.Instances.map Prod.fst).Nodup)
    (ha : ∀ n ∈ s.ActiveConns, ∃ v, mapGet s.Instances n = some v) :
    (∀ kv ∈ s1.Instances, kv.2.ConnName = kv.1) ∧
    (s1.Instances.map Prod.fst).Nodup ∧
    (∀ n ∈ s1.ActiveConns, ∃ v, mapGet s1.Instances n = some v) := by
  rcases handleEvent_cases env e s s1 hsync h with
    ⟨_, _, hi, hac⟩ | ⟨_, hi, hac⟩ | ⟨_, _, hi, hac⟩
  · rw [hi, hac]
    exact ⟨hk, hn, ha⟩
  · have hget : ∀ n, (∃ v, mapGet s.Instances n = some v) →
        ∃ v, mapGet (mapSet s.Instances (submittedName e)
          { enterInstance env e with Driver := (e.Connect (enterInstance env e)).1 }) n =
          some v := by
      intro n hv
      by_cases hne : n = submittedName e
      · exact ⟨_, by rw [hne, mapGet_mapSet_self]⟩
      · rw [mapGet_mapSet_ne _ _ _ _ hne]
        exact hv
    rw [hi]
    refine ⟨?_, nodup_keys_mapSet _ _ _ hn, ?_⟩
    · intro kv hkv
      rcases mem_mapSet _ _ _ _ hkv with h1 | h1
      · exact hk kv h1
      · rw [h1]
        rfl
    · intro n hmem
      rw [hac] at hmem
      split_ifs at hmem
      · rcases List.mem_append.mp hmem with h1 | h1
        · exact hget n (ha n h1)
        · rw [List.mem_singleton.mp h1]
          exact ⟨_, mapGet_mapSet_self _ _ _⟩
      · exact hget n (ha n hmem)
  · rw [hi]
    refine ⟨hk, hn, ?_⟩
    intro n hmem
    rw [hac] at hmem
    rcases reconnectAll_mem _ _ _ n hmem with h1 | ⟨kv, hkv, hnm⟩
    · exact ha n h1
    · have hkey := hk kv hkv
      rw [hnm] at hkey
      exact mapGet_of_mem s.Instances n kv.2 (by rw [hkey]; exact hkv)

theorem runEvents_keys (env : Env)
    (hsync : ∀ m f f1 m1, env.SyncConfig m f = some (f1, m1) → m1 = m) :
    ∀ (evs : List KeyEvent) (s sf : UI),
    runEvents env evs s = some sf →
    (∀ kv ∈ s.Instances, kv.2.ConnName = kv.1) →
    (s.Instances.map Prod.fst).Nodup →
    (∀ n ∈ s.ActiveConns, ∃ v, mapGet s.Instances n = some v) →
    (∀ kv ∈ sf.Instances, kv.2.ConnName = kv.1) ∧
    (sf.Instances.map Prod.fst).Nodup ∧
    (∀ n ∈ sf.ActiveConns, ∃ v, mapGet sf.Instances n = some v)
  | [], s, sf, h, hk, hn, ha => by
    simp only [runEvents, Option.some.injEq] at h
    subst h
    exact ⟨hk, hn, ha⟩
  | e :: es, s, sf, h, hk, hn, ha => by
    simp only [runEvents] at h
    cases hs : handleEvent env e s with
    | none => simp [hs] at h
    | some s1 =>
      simp only [hs] at h
      obtain ⟨hk1, hn1, ha1⟩ := handleEvent_keys env e s s1 hsync hs hk hn ha
      exact runEvents_keys env hsync es s1 sf h hk1 hn1 ha1

/-- One key event that neither submits an online name again nor reconnects a
stored instance keeps the online list consistent. -/
theorem handleEvent_online (env : Env) (e : KeyEvent) (s s1 : UI)
    (hsync : ∀ m f f1 m1, env.SyncConfig m f = some (f1, m1) → m1 = m)
    (h : handleEvent env e s = some s1)
    (hgood : ∀ i, (e.Connect i).2 = true → (e.Connect i).1 ≠ none)
    (hres : resubmits env e s = false) (hrec : reconnects env e s = false)
    (hinv : onlineConsistent s) : onlineConsistent s1 := by
  obtain ⟨hnd, hdr⟩ := hinv
  rcases handleEvent_cases env e s s1 hsync h with
    ⟨_, _, hi, hac⟩ | ⟨hacc, hi, hac⟩ | ⟨hk, hd, hi, hac⟩
  · unfold onlineConsistent
    rw [hi, hac]
    exact ⟨hnd, hdr⟩
  · have hold : ∀ n ∈ s.ActiveConns, n ≠ submittedName e → ∃ v,
        mapGet (mapSet s.Instances (submittedName e)
          { enterInstance env e with Driver := (e.Connect (enterInstance env e)).1 }) n =
          some v ∧ v.Driver ≠ none := by
      intro n hm hne
      rw [mapGet_mapSet_ne _ _ _ _ hne]
      exact hdr n hm
    unfold onlineConsistent
    rw [hi, hac]
    by_cases hc : (e.Connect (enterInstance env e)).2 = true
    · have hnotin : submittedName e ∉ s.ActiveConns := by
        intro hm
        simp [resubmits, hacc, hm, hc] at hres
      rw [if_pos hc]
      refine ⟨List.Nodup.append hnd (List.nodup_singleton _) ?_, ?_⟩
      · intro a ha hb
        rw [List.mem_singleton.mp hb] at ha
        exact hnotin ha
      · intro n hm
        rcases List.mem_append.mp hm with h1 | h1
        · exact hold n h1 (fun he => hnotin (he ▸ h1))
        · rw [List.mem_singleton.mp h1, mapGet_mapSet_self]
          exact ⟨_, rfl, hgood _ hc⟩
    · rw [if_neg hc]
      refine ⟨hnd, ?_⟩
      intro n hm
      by_cases hne : n = submittedName e
      · rw [hne, mapGet_mapSet_self]
        refine ⟨_, rfl, ?_⟩
        intro hnone
        have hm2 : submittedName e ∈ s.ActiveConns := hne ▸ hm
        have hnone2 : (e.Connect (enterInstance env e)).1 = none := hnone
        simp [resubmits, hacc, hm2, hnone2] at hres
      · exact hold n hm hne
  · have hany : s.Instances.any
        (fun kv => decide (kv.2.Driver = none) && (e.Connect kv.2).2) = false := by
      simp only [reconnects, hk, hd, decide_True, Bool.not_false, Bool.true_and] at hrec
      exact hrec
    have hfil : s.Instances.filter
        (fun kv => decide (kv.2.Driver = none) && (e.Connect kv.2).2) = [] := by
      rw [List.filter_eq_nil_iff]
      intro kv hkv hp
      have hex : s.Instances.any
          (fun kv => decide (kv.2.Driver = none) && (e.Connect kv.2).2) = true :=
        List.any_eq_true.mpr ⟨kv, hkv, hp⟩
      rw [hany] at hex
      cases hex
    have hq : s1.ActiveConns = s.ActiveConns := by
      rw [hac, reconnectAll_eq]
      have hfil2 : s.Instances.filter
          (fun kv => decide (kv.2.Driver = none) &&
            (({ env with Ping := e.Ping, Connect := e.Connect } : Env).Connect kv.2).2) = [] :=
        hfil
      rw [hfil2]
      simp
    unfold onlineConsistent
    rw [hi, hq]
    exact ⟨hnd, hdr⟩

theorem runEvents_online (env : Env)
    (hsync : ∀ m f f1 m1, env.SyncConfig m f = some (f1, m1) → m1 = m) :
    ∀ (evs : List KeyEvent) (s sf : UI),
    runEvents env evs s = some sf →
    (∀ e ∈ evs, ∀ i, (e.Connect i).2 = true → (e.Connect i).1 ≠ none) →
    orderly env evs s = true →
    onlineConsistent s → onlineConsistent sf
  | [], s, sf, h, _, _, hinv => by
    simp only [runEvents, Option.some.injEq] at h
    subst h
    exact hinv
  | e :: es, s, sf, h, hgood, hord, hinv => by
    simp only [runEvents] at h
    cases hs : handleEvent env e s with
    | none => simp [hs] at h
    | some s1 =>
      simp only [hs] at h
      simp only [orderly, hs, Bool.and_eq_true, Bool.not_eq_true'] at hord
      obtain ⟨⟨hres, hrec⟩, hrest⟩ := hord
      have hinv1 := handleEvent_online env e s s1 hsync hs (hgood e (by simp)) hres hrec hinv
      exact runEvents_online env hsync es s1 sf h (fun e1 h1 => hgood e1 (by simp [h1]))
        hrest hinv1

/-- One key event that submits an online name again or reconnects a stored
instance leaves the online list inconsistent. -/
theorem handleEvent_breaks (env : Env) (e : KeyEvent) (s s1 : UI)
    (hsync : ∀ m f f1 m1, env.SyncConfig m f = some (f1, m1) → m1 = m)
    (h : handleEvent env e s = some s1)
    (hk : ∀ kv ∈ s.Instances, kv.2.ConnName = kv.1)
    (hn : (s.Instances.map Prod.fst).Nodup)
    (hbad : resubmits env e s = true ∨ reconnects env e s = true) :
    ¬ onlineConsistent s1 := by
  rintro ⟨hnd, hdr⟩
  rcases handleEvent_cases env e s s1 hsync h with
    ⟨hacc, hcd, _, _⟩ | ⟨hacc, hi, hac⟩ | ⟨hkey, hd, hi, hac⟩
  · rcases hbad with hb | hb
    · simp [resubmits, hacc] at hb
    · simp only [reconnects, Bool.and_eq_true, decide_eq_true_eq, Bool.not_eq_true'] at hb
      have := hcd hb.1.1
      rw [hb.1.2] at this
      cases this
  · rcases hbad with hb | hb
    · simp only [resubmits, hacc, Bool.true_and, Bool.and_eq_true, decide_eq_true_eq,
        Bool.or_eq_true] at hb
      obtain ⟨hm, hc⟩ := hb
      by_cases hc2 : (e.Connect (enterInstance env e)).2 = true
      · rw [hac, if_pos hc2] at hnd
        have := List.disjoint_of_nodup_append hnd hm (List.mem_singleton_self _)
        exact this
      · have hnone : (e.Connect (enterInstance env e)).1 = none := by
          rcases hc with hc | hc
          · exact absurd hc hc2
          · exact hc
        have hm1 : submittedName e ∈ s1.ActiveConns := by
          rw [hac, if_neg hc2]
          exact hm
        obtain ⟨v, hv, hvd⟩ := hdr _ hm1
        rw [hi, mapGet_mapSet_self] at hv
        simp only [Option.some.injEq] at hv
        rw [← hv] at hvd
        exact hvd hnone
    · simp only [accepted, Bool.and_eq_true, decide_eq_true_eq] at hacc
      simp only [reconnects, Bool.and_eq_true, decide_eq_true_eq] at hb
      have h1 := hacc.1.1.1.1
      rw [hb.1.1] at h1
      cases h1
  · rcases hbad with hb | hb
    · simp only [resubmits, accepted, Bool.and_eq_true, decide_eq_true_eq] at hb
      have h1 := hb.1.1.1.1.1.1
      rw [hkey] at h1
      cases h1
    · simp only [reconnects, Bool.and_eq_true, decide_eq_true_eq, List.any_eq_true] at hb
      obtain ⟨_, kv, hkv, hp⟩ := hb
      have hp1 : kv.2.Driver = none := hp.1
      have hmem : kv.2.ConnName ∈ s1.ActiveConns := by
        rw [hac, reconnectAll_eq]
        apply List.mem_append_right
        apply List.mem_map_of_mem (fun kv : Str × Instance => kv.2.ConnName)
        rw [List.mem_filter]
        refine ⟨hkv, ?_⟩
        simp only [Bool.and_eq_true, decide_eq_true_eq]
        exact ⟨hp.1, hp.2⟩
      obtain ⟨v, hv, hvd⟩ := hdr _ hmem
      rw [hi, hk kv hkv, mapGet_of_mem_nodup s.Instances kv.1 kv.2 hn hkv] at hv
      simp only [Option.some.injEq] at hv
      rw [← hv] at hvd
      exact hvd hp1

theorem sampleSyncConfig_keeps (m : List (Str × Instance)) (f f1 : File)
    (m1 : List (Str × Instance)) (h : sampleSyncConfig m f = some (f1, m1)) : m1 = m := by
  unfold sampleSyncConfig at h
  split at h
  · simp only [reduceCtorEq] at h
  · simp only [Option.some.injEq, Prod.mk.injEq] at h
    exact h.2.symm

/-- C11, as stated, fails: from an empty `ActiveConns` and `Instances`, two
Enter submissions of the name `prod` that both connect leave `prod` twice in
`ActiveConns`; an Enter submission that connects, followed by one of the same
name whose connection attempt fails, leaves `prod` in `ActiveConns` with a nil
`Driver` stored under it; and an Enter submission whose connection attempt
fails, followed by a Ctrl-D whose attempt succeeds, does the same. -/
theorem online_list_inconsistent :
    sampleUI.ActiveConns = [] ∧ sampleUI.Instances = [] ∧
    (runEvents sampleEnv
        [submitEvent 1000000000 "a".toList "prod".toList true (some 1, true),
         submitEvent 2000000000 "a".toList "prod".toList true (some 1, true)]
        sampleUI).map onlineView =
      some (["prod".toList, "prod".toList], [("prod".toList, true)]) ∧
    (runEvents sampleEnv
        [submitEvent 1000000000 "a".toList "prod".toList true (some 1, true),
         submitEvent 2000000000 "a".toList "prod".toList true (none, false)]
        sampleUI).map onlineView =
      some (["prod".toList], [("prod".toList, false)]) ∧
    (runEvents sampleEnv
        [submitEvent 1000000000 "a".toList "prod".toList true (none, false),
         reconnectEvent 2000000000 (some 1, true)]
        sampleUI).map onlineView =
      some (["prod".toList], [("prod".toList, false)]) := by
  refine ⟨rfl, rfl, ?_, ?_, ?_⟩ <;> decide

/-- C11, amended: let `io.SyncConfig` leave the `Instances` map as it is.
From an empty `ActiveConns` and `Instances`, after every sequence of key
events that the subscriber handles without a panic, the map has distinct
keys, every instance is stored under its connection name, and every name in
`ActiveConns` is a key of `Instances`.  When in addition every connection
attempt without error yields a handle and no key event of the sequence
submits an online name again (an Enter that gets to the connection attempt
under a name in `ActiveConns` and connects once more or gets no handle) or
reconnects a stored instance (a handled Ctrl-D with a stored nil `Driver`
whose attempt has no error), no name occurs twice in `ActiveConns` and every
name in it is a key whose stored `Driver` is non-nil.  One further key event
of either excluded kind leaves the online list inconsistent. -/
theorem online_list_keys (env : Env) (evs : List KeyEvent) (s0 sf : UI)
    (hsync : ∀ m f f1 m1, env.SyncConfig m f = some (f1, m1) → m1 = m)
    (ha : s0.ActiveConns = []) (hi : s0.Instances = [])
    (hrun : runEvents env evs s0 = some sf) :
    ((sf.Instances.map Prod.fst).Nodup ∧
      (∀ kv ∈ sf.Instances, kv.2.ConnName = kv.1) ∧
      (∀ n ∈ sf.ActiveConns, ∃ v, mapGet sf.Instances n = some v ∧ v.ConnName = n)) ∧
    ((∀ e ∈ evs, ∀ i, (e.Connect i).2 = true → (e.Connect i).1 ≠ none) →
      orderly env evs s0 = true → onlineConsistent sf) ∧
    (∀ (e : KeyEvent) (s1 : UI), handleEvent env e sf = some s1 →
      (resubmits env e sf = true ∨ reconnects env e sf = true) →
      ¬ onlineConsistent s1) := by
  obtain ⟨hk, hn, hact⟩ := runEvents_keys env hsync evs s0 sf hrun
    (by simp [hi]) (by simp [hi]) (by simp [ha])
  refine ⟨⟨hn, hk, ?_⟩, ?_, ?_⟩
  · intro n hmem
    obtain ⟨v, hv⟩ := hact n hmem
    exact ⟨v, hv, hk (n, v) (mapGet_mem _ _ _ hv)⟩
  · intro hgood hord
    exact runEvents_online env hsync evs s0 sf hrun hgood hord
      ⟨by simp [ha], by simp [ha]⟩
  · intro e s1 h hbad
    exact handleEvent_breaks env e sf s1 hsync h hk hn hbad

set_option maxRecDepth 100000 in
/-- C11 amended, at a concrete run: an Enter submission of `prod` whose ping
fails, a second one that connects, a third one 10 ms later that the rate
limiter drops, a submission of `test` that connects, and a Ctrl-D that finds
no stored nil `Driver`. -/
theorem online_list_keys_witness :
    ∃ sf, runEvents sampleEnv
        [submitEvent 1000000000 "a".toList "prod".toList false (none, false),
         submitEvent 2000000000 "a".toList "prod".toList true (some 1, true),
         submitEvent 2010000000 "a".toList "prod".toList true (some 1, true),
         submitEvent 3000000000 "b".toList "test".toList true (some 2, true),
         reconnectEvent 4000000000 (some 3, true)]
        sampleUI = some sf ∧
      sf.ActiveConns = ["prod".toList, "test".toList] ∧ onlineConsistent sf := by
  have hv : (runEvents sampleEnv
      [submitEvent 1000000000 "a".toList "prod".toList false (none, false),
       submitEvent 2000000000 "a".toList "prod".toList true (some 1, true),
       submitEvent 2010000000 "a".toList "prod".toList true (some 1, true),
       submitEvent 3000000000 "b".toList "test".toList true (some 2, true),
       reconnectEvent 4000000000 (some 3, true)]
      sampleUI).map onlineView =
      some (["prod".toList, "test".toList],
            [("prod".toList, true), ("test".toList, true)]) := by
    decide
  cases hr : runEvents sampleEnv
      [submitEvent 1000000000 "a".toList "prod".toList false (none, false),
       submitEvent 2000000000 "a".toList "prod".toList true (some 1, true),
       submitEvent 2010000000 "a".toList "prod".toList true (some 1, true),
       submitEvent 3000000000 "b".toList "test".toList true (some 2, true),
       reconnectEvent 4000000000 (some 3, true)]
      sampleUI with
  | none =>
    rw [hr] at hv
    cases hv
  | some sf =>
    rw [hr] at hv
    simp only [Option.map_some', Option.some.injEq, onlineView, Prod.mk.injEq] at hv
    refine ⟨sf, rfl, hv.1, ?_⟩
    refine (online_list_keys sampleEnv _ sampleUI sf sampleSyncConfig_keeps rfl rfl hr).2.1
      ?_ (by decide)
    intro e he i
    simp only [List.mem_cons, List.mem_singleton, List.not_mem_nil, or_false] at he
    rcases he with rfl | rfl | rfl | rfl | rfl <;> simp [submitEvent, reconnectEvent]

end Gotop
